import Mathlib

/-!
# Verification of the RecSys-LLMs two-tower recommender core

Shallow embedding of the Week-4 MovieLens application (`src/Week-4/app.js`)
and the two-tower retrieval model (`two-tower.js`).  Data loading, the
training loop bookkeeping, the recommendation pipeline and the in-batch
softmax loss are translated into Lean definitions; the numbered claim
theorems at the end of the file settle the specification claims.

Conventions:
* JavaScript numbers that arise from `parseInt` are modelled as `Option Int`,
  `none` standing for `NaN`.
* `Array.prototype.sort` (stable since ES2019) is modelled by a stable
  insertion sort `jsSort` driven by the boolean relation derived from the
  JS comparator (a comparator value of `NaN` collapses to `0`, as in the
  ECMAScript `SortCompare` operation).
* Input files are modelled after the line and field splitting which the
  application performs (`split('\n')`, `split('|')`, `split('\t')`): an
  input is a list of lines, each line a list of string fields.  A missing
  field (JS `undefined`) is modelled by the empty string, whose
  `jsParseInt` is `none` just as `parseInt(undefined)` is `NaN`.
* Tensor arithmetic of the loss (`two-tower.js` `trainStep`) is modelled
  over the real numbers.
-/

namespace RecSys

/-! ## Definitions -/

/-- Whitespace characters skipped by `parseInt`. -/
def isWs (c : Char) : Bool := c == ' ' || c == '\t' || c == '\n' || c == '\r'

/-- Decimal value of a digit string, most significant digit first. -/
def digitsToNat (ds : List Char) : Nat := ds.foldl (fun a c => a * 10 + (c.toNat - 48)) 0

/-- Longest decimal-digit prefix of a character list; `none` when there is no digit. -/
def parseNatPrefix (cs : List Char) : Option Nat :=
  let ds := cs.takeWhile Char.isDigit
  if ds.isEmpty then none else some (digitsToNat ds)

/-- Model of `parseInt(s, 10)`: skip leading whitespace, optional sign, longest digit
prefix; `none` models `NaN`. -/
def jsParseInt (s : String) : Option Int :=
  let cs := s.toList.dropWhile isWs
  match cs with
  | '-' :: rest => (parseNatPrefix rest).map (fun n => -(n : Int))
  | '+' :: rest => (parseNatPrefix rest).map (fun n => (n : Int))
  | _ => (parseNatPrefix cs).map (fun n => (n : Int))

/-- First capture of the regex `\((\d{4})\)` when it matches right after an
opening parenthesis that has already been consumed. -/
def yearDigits : List Char → Option String
  | a :: b :: c :: d :: ')' :: _ =>
      if a.isDigit && b.isDigit && c.isDigit && d.isDigit then some (String.mk [a, b, c, d])
      else none
  | _ => none

/-- Scan for the first match of `\((\d{4})\)` and return the captured year,
as `title.match(/\((\d{4})\)/)` does in `app.js`. -/
def findYear : List Char → Option String
  | [] => none
  | '(' :: rest =>
      match yearDigits rest with
      | some y => some y
      | none => findYear rest
  | _ :: rest => findYear rest

/-- Model of `Map.get`: value of the first (unique) entry with the given key. -/
def mapGet (k : String) : List (String × α) → Option α
  | [] => none
  | (k', v) :: m => if k' = k then some v else mapGet k m

/-- Model of `Map.set`: replace the value in place when the key exists, append otherwise. -/
def mapSet (k : String) (v : α) : List (String × α) → List (String × α)
  | [] => [(k, v)]
  | (k', v') :: m => if k' = k then (k, v) :: m else (k', v') :: mapSet k v m

/-- Model of `Map.has`. -/
def mapHas (k : String) (m : List (String × α)) : Bool := (mapGet k m).isSome

/-- Model of `Set.add`: insertion-ordered, ignores duplicates. -/
def setAdd (s : List String) (x : String) : List String := if x ∈ s then s else s ++ [x]

/-- Index of the first occurrence of `k` in a list. -/
def idxOf? (k : String) : List String → Option Nat
  | [] => none
  | x :: xs => if x = k then some 0 else (idxOf? k xs).map (· + 1)

/-- First-occurrence deduplication with an explicit accumulator. -/
def dedupFirstAux (acc : List String) : List String → List String
  | [] => acc
  | x :: xs => dedupFirstAux (if x ∈ acc then acc else acc ++ [x]) xs

/-- Keep the first occurrence of every element, in order of first appearance. -/
def dedupFirst (l : List String) : List String := dedupFirstAux [] l

/-- Stable insertion: place `x` in front of the first element `y` such that
`le x y` (i.e. comparator(x, y) ≤ 0), so that elements that compare equal
keep their original relative order, as the ES2019 stable sort does. -/
def insertLe (le : α → α → Bool) (x : α) : List α → List α
  | [] => [x]
  | y :: ys => if le x y then x :: y :: ys else y :: insertLe le x ys

/-- Stable sort driven by the boolean image of a JS comparator:
`le a b` means comparator(a, b) ≤ 0. -/
def jsSort (le : α → α → Bool) : List α → List α
  | [] => []
  | x :: xs => insertLe le x (jsSort le xs)

/-- The `CONFIG` object of `app.js` (the fields the store and trainer consume). -/
structure Config where
  maxInteractions : Nat := 80000
  topK : Nat := 10
  minRatingsForTest : Nat := 20
deriving DecidableEq

/-- One entry of `this.items`: `{title, year, iIdx}`. -/
structure ItemInfo where
  title : String
  year : Option String
  iIdx : Nat
deriving DecidableEq

/-- One element of `this.interactions`:
`{userId, itemId, rating, ts, uIdx, iIdx}`; `rating` and `ts` are
`parseInt` results (`none` = `NaN`). -/
structure Interaction where
  userId : String
  itemId : String
  rating : Option Int
  ts : Option Int
  uIdx : Nat
  iIdx : Nat
deriving DecidableEq

/-- The mutable fields of `MovieLensApp` that `loadData` populates. -/
structure Store where
  interactions : List Interaction
  items : List (String × ItemInfo)
  userMap : List (String × Nat)
  itemMap : List (String × Nat)
  reverseUserMap : List String
  reverseItemMap : List String
  userTopRated : List (String × List Interaction)
  userRatedItems : List (String × List String)
  testUsers : List String
  numUsers : Nat
  numItems : Nat
deriving DecidableEq

/-- The state the `MovieLensApp` constructor creates. -/
def Store.empty : Store := ⟨[], [], [], [], [], [], [], [], [], 0, 0⟩

/-- JS `!==` on two numbers that may be `NaN`: `NaN` is unequal to everything,
itself included. -/
def jsNeq : Option Int → Option Int → Bool
  | some a, some b => a != b
  | _, _ => true

/-- JS subtraction of two numbers that may be `NaN`. -/
def jsSub : Option Int → Option Int → Option Int
  | some a, some b => some (a - b)
  | _, _ => none

/-- ECMAScript `SortCompare`: a comparator result of `NaN` is treated as `+0`. -/
def cmpVal : Option Int → Int
  | some v => v
  | none => 0

/-- The comparator of `app.js` line 144:
`if (b.rating !== a.rating) return b.rating - a.rating; return b.ts - a.ts`. -/
def interactionCmp (a b : Interaction) : Int :=
  if jsNeq b.rating a.rating then cmpVal (jsSub b.rating a.rating)
  else cmpVal (jsSub b.ts a.ts)

/-- Relation `interactionLe a b` holds iff the comparator places `a` no later than `b`. -/
def interactionLe (a b : Interaction) : Bool := interactionCmp a b ≤ 0

/-- Processing of one line of `data/u.item` (already split at `'|'`):
first-seen items get the next dense index; `n` is the local `itemIndex`
counter of `loadData`.  A missing title field is modelled as the empty
string; the claims never exercise item lines with fewer than two fields. -/
def processItemLine (st : Store) (n : Nat) (parts : List String) : Store × Nat :=
  let itemId := parts.getD 0 ""
  let title := parts.getD 1 ""
  let year := findYear title.toList
  if mapHas itemId st.itemMap then (st, n)
  else
    ({ st with
        itemMap := mapSet itemId n st.itemMap,
        reverseItemMap := st.reverseItemMap ++ [itemId],
        items := mapSet itemId ⟨title, year, n⟩ st.items }, n + 1)

/-- Fold of `processItemLine` over the metadata lines. -/
def processItemLines (st : Store) (n : Nat) : List (List String) → Store
  | [] => st
  | parts :: rest =>
      let p := processItemLine st n parts
      processItemLines p.1 p.2 rest

/-- Accumulator of the interaction-ingestion loop: the store, the local
`rawInteractions` array, and the local `userIndex` counter. -/
structure RatingAcc where
  st : Store
  raw : List Interaction
  userIndex : Nat
deriving DecidableEq

/-- Processing of one line of `data/u.data` (already split at tab):
lines whose item id is unknown are ignored; otherwise the user is indexed
on first sight, the interaction is pushed, and the rated-item set and the
per-user interaction list are extended. -/
def processRatingLine (acc : RatingAcc) (parts : List String) : RatingAcc :=
  let userId := parts.getD 0 ""
  let itemId := parts.getD 1 ""
  if mapHas itemId acc.st.itemMap then
    let p : Nat × List (String × Nat) × List String × Nat :=
      match mapGet userId acc.st.userMap with
      | some i => (i, acc.st.userMap, acc.st.reverseUserMap, acc.userIndex)
      | none =>
          (acc.userIndex, mapSet userId acc.userIndex acc.st.userMap,
           acc.st.reverseUserMap ++ [userId], acc.userIndex + 1)
    let iIdx := (mapGet itemId acc.st.itemMap).getD 0
    let t : Interaction :=
      ⟨userId, itemId, jsParseInt (parts.getD 2 ""), jsParseInt (parts.getD 3 ""), p.1, iIdx⟩
    let rated := (mapGet userId acc.st.userRatedItems).getD []
    let top := (mapGet userId acc.st.userTopRated).getD []
    { st :=
        { acc.st with
            userMap := p.2.1,
            reverseUserMap := p.2.2.1,
            userRatedItems := mapSet userId (setAdd rated itemId) acc.st.userRatedItems,
            userTopRated := mapSet userId (top ++ [t]) acc.st.userTopRated },
      raw := acc.raw ++ [t],
      userIndex := p.2.2.2 }
  else acc

/-- Fold of `processRatingLine` over the interaction lines. -/
def processRatingLines (acc : RatingAcc) : List (List String) → RatingAcc
  | [] => acc
  | parts :: rest => processRatingLines (processRatingLine acc parts) rest

/-- Model of `MovieLensApp.loadData` on pre-split lines: item metadata pass,
capped interaction pass, per-user historical top-K sort and truncation,
eligible-user computation, and the count fields. -/
def loadData (cfg : Config) (itemLines ratingLines : List (List String)) (st0 : Store) : Store :=
  let st1 := processItemLines st0 0 itemLines
  let acc := processRatingLines ⟨st1, [], 0⟩ (ratingLines.take cfg.maxInteractions)
  let st2 := { acc.st with interactions := acc.raw }
  let st3 :=
    { st2 with
        userTopRated :=
          st2.userTopRated.map
            (fun q : String × List Interaction =>
              (q.1, (jsSort interactionLe q.2).take cfg.topK)) }
  { st3 with
      testUsers :=
        st3.reverseUserMap.filter
          (fun u => cfg.minRatingsForTest ≤ ((mapGet u st3.userRatedItems).getD []).length),
      numUsers := st3.reverseUserMap.length,
      numItems := st3.reverseItemMap.length }

/-- The item id field of a metadata line. -/
def itemIdOf (parts : List String) : String := parts.getD 0 ""

/-- An interaction line is kept exactly when its item id is a known item. -/
def keepLine (im : List (String × Nat)) (parts : List String) : Bool :=
  mapHas (parts.getD 1 "") im

/-- The interaction record built from a kept line, with both indices read
from the given maps. -/
def mkInteraction (um im : List (String × Nat)) (parts : List String) : Interaction :=
  ⟨parts.getD 0 "", parts.getD 1 "", jsParseInt (parts.getD 2 ""), jsParseInt (parts.getD 3 ""),
   (mapGet (parts.getD 0 "") um).getD 0, (mapGet (parts.getD 1 "") im).getD 0⟩

/-- Invariant of the interaction-ingestion loop, relating the store fields
populated so far, the local `rawInteractions` list and the local
`userIndex` counter. -/
structure LoadInv (st : Store) (raw : List Interaction) (uCtr : Nat) : Prop where
  counter : uCtr = st.reverseUserMap.length
  userMaps : ∀ k, mapGet k st.userMap = idxOf? k st.reverseUserMap
  userOrder : st.reverseUserMap = dedupFirst (raw.map Interaction.userId)
  rawUser : ∀ t ∈ raw, mapGet t.userId st.userMap = some t.uIdx
  rawItem : ∀ t ∈ raw, mapGet t.itemId st.itemMap = some t.iIdx
  rated : ∀ u, mapGet u st.userRatedItems =
      if u ∈ st.reverseUserMap
      then some (dedupFirst ((raw.filter (fun t => t.userId == u)).map Interaction.itemId))
      else none
  top : ∀ u, mapGet u st.userTopRated =
      if u ∈ st.reverseUserMap
      then some (raw.filter (fun t => t.userId == u))
      else none

/-- The accumulator produced by the interaction pass inside `loadData`. -/
def loadAcc (cfg : Config) (il rl : List (List String)) (st0 : Store) : RatingAcc :=
  processRatingLines ⟨processItemLines st0 0 il, [], 0⟩ (rl.take cfg.maxInteractions)

/-- A small configuration for the concrete fixtures. -/
def cfgW : Config := { maxInteractions := 80000, topK := 2, minRatingsForTest := 1 }

/-- Metadata lines of the fixture: items 1, 2, 3. -/
def ilW : List (List String) := [["1", "A (1995)"], ["2", "B"], ["3", "C"]]

/-- Interaction lines of the fixture: user 7 rates A(5,t=100), B(5,t=200), C(3,t=300). -/
def rlW : List (List String) :=
  [["7", "1", "5", "100"], ["7", "2", "5", "200"], ["7", "3", "3", "300"]]

/-- The fixture store. -/
def stW : Store := loadData cfgW ilW rlW Store.empty

/-- Modelled from the spec wording: `a` may precede `b` when the rating of
`a` is higher, or equal with a timestamp at least as recent (rating
descending, timestamp-descending tie-break). -/
def ratingThenTsDesc (a b : Interaction) : Prop :=
  ∀ ra rb ta tb : Int, a.rating = some ra → b.rating = some rb →
    a.ts = some ta → b.ts = some tb → (rb < ra ∨ (rb = ra ∧ tb ≤ ta))

/-- Interaction lines of the skip fixture: user 9 only rates the unknown
item 99. -/
def rl10 : List (List String) := rlW ++ [["9", "99", "4", "50"]]

/-- The skip-fixture store. -/
def st10 : Store := loadData cfgW ilW rl10 Store.empty

/-- Interaction lines of the malformed fixture: the rating field of the
only line is the non-numeric string "oops". -/
def rlN : List (List String) := [["9", "1", "oops", "100"]]

/-- The malformed-fixture store. -/
def stN : Store := loadData cfgW ilW rlN Store.empty

/-- Metadata line of the reload fixture. -/
def ilD : List (List String) := [["1", "A"]]

/-- Interaction line of the reload fixture. -/
def rlD : List (List String) := [["7", "1", "5", "100"]]

/-- The reload fixture after one load. -/
def s1D : Store := loadData cfgW ilD rlD Store.empty

/-- The reload fixture after loading the same dataset a second time. -/
def s2D : Store := loadData cfgW ilD rlD s1D

/-- One element of `allItemsWithScores` (`app.js` line 413):
`{iIdx, itemId, score}`.  Scores are modelled over the rationals. -/
structure ScoredItem where
  iIdx : Nat
  itemId : String
  score : ℚ
deriving DecidableEq

/-- Model of `scores.map((score, iIdx) => ({iIdx, itemId: reverseItemMap[iIdx], score}))`. -/
def withScores (reverseItemMap : List String) : Nat → List ℚ → List ScoredItem
  | _, [] => []
  | i, sc :: rest => ⟨i, reverseItemMap.getD i "", sc⟩ :: withScores reverseItemMap (i + 1) rest

/-- The comparator `(a, b) => b.score - a.score` as a boolean order. -/
def scoreLe (a b : ScoredItem) : Bool := decide (b.score ≤ a.score)

/-- Model of `MovieLensApp.test` lines 413-424: score every item, exclude the rated
ones, sort by score descending, take the top K. -/
def recommend (reverseItemMap ratedItemIds : List String) (scores : List ℚ) (k : Nat) :
    List ScoredItem :=
  let allItemsWithScores := withScores reverseItemMap 0 scores
  let unratedItems := allItemsWithScores.filter (fun it => !(ratedItemIds.contains it.itemId))
  (jsSort scoreLe unratedItems).take k

/-- Dot product of two rational vectors. -/
def dotQ (u v : List ℚ) : ℚ := (List.zipWith (fun a b => a * b) u v).sum

/-- Model of `TwoTowerModel.getScoresForAllItems`: `itemEmbeddings ([numItems, D])`
matrix-multiplied with the user embedding (`[D, 1]`), squeezed to a flat
score array with one entry per embedding-table row. -/
def getScoresForAllItems (itemEmbeddings : List (List ℚ)) (userEmbedding : List ℚ) : List ℚ :=
  itemEmbeddings.map (fun row => dotQ row userEmbedding)

/-- The embedding table the `TwoTowerModel` constructor creates:
`numRows × embeddingDim` entries; the Gaussian initialization is abstracted
into `init`. -/
def mkEmbeddingTable (numRows embeddingDim : Nat) (init : Nat → Nat → ℚ) : List (List ℚ) :=
  (List.range numRows).map (fun i => (List.range embeddingDim).map (fun d => init i d))

/-- Model of `Math.ceil(interactions.length / batchSize)` (`app.js` line 197). -/
def numBatchesJs (n b : Nat) : Nat := (n + b - 1) / b

/-- Batch `i` is `interactions.slice(i * batchSize, (i + 1) * batchSize)`. -/
def batchesOf (b numBatches : Nat) (l : List Interaction) : List (List Interaction) :=
  (List.range numBatches).map (fun i => (l.drop (i * b)).take b)

/-- One epoch: run the training step on every batch, pushing one loss per
batch onto the history. -/
def epochLosses (step : List Interaction → ℚ) (b numBatches : Nat)
    (l : List Interaction) : List ℚ :=
  (batchesOf b numBatches l).map step

/-- The epoch loop: shuffle the (threaded) interaction order in place, then
train on the precomputed number of sequential slices.  The biased
`sort(() => Math.random() - 0.5)` shuffle is abstracted into the `shuffle`
argument. -/
def trainGo (shuffle : Nat → List Interaction → List Interaction)
    (step : List Interaction → ℚ) (b numBatches : Nat) :
    Nat → Nat → List Interaction → List ℚ → List Interaction × List ℚ
  | 0, _, l, hist => (l, hist)
  | e + 1, eIdx, l, hist =>
      trainGo shuffle step b numBatches e (eIdx + 1) (shuffle eIdx l)
        (hist ++ epochLosses step b numBatches (shuffle eIdx l))

/-- Model of `MovieLensApp.train`: the batch count is computed once from the full
interaction count, then `epochs` epochs each train on every slice; the
returned list is the complete loss history. -/
def train (shuffle : Nat → List Interaction → List Interaction)
    (step : List Interaction → ℚ) (b epochs : Nat) (l0 : List Interaction) : List ℚ :=
  (trainGo shuffle step b (numBatchesJs l0.length b) epochs 0 l0 []).2

/-- A fixture interaction for the training-loop witness. -/
def tDummy : Interaction := ⟨"u", "i", none, none, 0, 0⟩

/-- The flags of `MovieLensApp` that gate training and testing:
`this.model !== null`, `this.isTraining`, whether data is loaded, and the
number of completed training runs (a history variable; a run completes at
`app.js` line 222 when `isTraining` is reset after the last epoch). -/
structure AppPhase where
  dataLoaded : Bool
  hasModel : Bool
  isTraining : Bool
  completedRuns : Nat
deriving DecidableEq

/-- The constructor state: no model, not training. -/
def initPhase : AppPhase := ⟨false, false, false, 0⟩

/-- Atomic control-flow events of the app.  `train()` is asynchronous: it
sets `isTraining := true` and creates the model synchronously before its
first `await` (`trainStart`), and resets `isTraining := false` only after
the last epoch finished (`trainFinish`); every interleaving point inside
the epoch loop therefore observes `isTraining = true`. -/
inductive AppStep : AppPhase → AppPhase → Prop
  | loadDone (s : AppPhase) :
      AppStep s { s with dataLoaded := true }
  | trainStart (s : AppPhase) (hd : s.dataLoaded = true) (ht : s.isTraining = false) :
      AppStep s { s with hasModel := true, isTraining := true }
  | trainFinish (s : AppPhase) (ht : s.isTraining = true) :
      AppStep s { s with isTraining := false, completedRuns := s.completedRuns + 1 }

/-- States reachable from the constructor state. -/
inductive Reachable : AppPhase → Prop
  | init : Reachable initPhase
  | step {s s2 : AppPhase} : Reachable s → AppStep s s2 → Reachable s2

/-- Outcome of `MovieLensApp.test` (lines 387-395). -/
inductive TestResult
  | notReady
  | noEligibleUsers
  | recommendations
deriving DecidableEq

/-- Model of `test()`: on `if (!this.model || this.isTraining)` report that the model
is not ready; then an empty eligible-user pool yields its own message;
otherwise recommendations are produced. -/
def testRun (s : AppPhase) (hasEligibleUsers : Bool) : TestResult :=
  if !s.hasModel || s.isTraining then TestResult.notReady
  else if !hasEligibleUsers then TestResult.noEligibleUsers
  else TestResult.recommendations

noncomputable section

/-- Model of `tf.gather`: select rows of an embedding table by index, preserving
batch order. -/
def tfGather {n D B : ℕ} (table : Fin n → Fin D → ℝ) (idx : Fin B → Fin n) :
    Fin B → Fin D → ℝ :=
  fun b d => table (idx b) d

/-- Model of `tf.matMul(A, C, false, true)`: `A` times the transpose of `C`. -/
def tfMatMulTransB {B Bp D : ℕ} (A : Fin B → Fin D → ℝ) (C : Fin Bp → Fin D → ℝ) :
    Fin B → Fin Bp → ℝ :=
  fun i j => ∑ d, A i d * C j d

/-- Model of `tf.oneHot(tf.range(0, B), B)`: the identity one-hot matrix whose
diagonal marks the positive pairs. -/
def tfOneHot (B : ℕ) : Fin B → Fin B → ℝ :=
  fun i j => if i = j then 1 else 0

/-- Log of the sum of exponentials of one logits row. -/
def logSumExp {B : ℕ} (v : Fin B → ℝ) : ℝ := Real.log (∑ j, Real.exp (v j))

/-- Row-wise softmax of a square logits matrix. -/
def rowSoftmax {B : ℕ} (z : Fin B → Fin B → ℝ) : Fin B → Fin B → ℝ :=
  fun i j => Real.exp (z i j) / ∑ k, Real.exp (z i k)

/-- Cross-entropy between a label distribution and a predicted
distribution, averaged over the batch. -/
def crossEntropy {B : ℕ} (labels p : Fin B → Fin B → ℝ) : ℝ :=
  (∑ i, -∑ j, labels i j * Real.log (p i j)) / B

/-- Model of `tf.losses.softmaxCrossEntropy(labels, logits)`: the from-logits
formulation `∑ labels * (logSumExp(logits) - logits)`, averaged over the
batch (the default `SUM_BY_NONZERO_WEIGHTS` reduction with unit weights). -/
def tfSoftmaxCrossEntropy {B : ℕ} (labels z : Fin B → Fin B → ℝ) : ℝ :=
  (∑ i, ∑ j, labels i j * (logSumExp (fun k => z i k) - z i j)) / B

/-- Model of `TwoTowerModel.trainStep` on a batch of B positive pairs: gather both
towers, form `logits = userEmbs ⬝ itemEmbsᵀ`, take the diagonal one-hot
labels, and return the softmax cross-entropy. -/
def trainStepLoss {nU nI D B : ℕ} (U : Fin nU → Fin D → ℝ) (I : Fin nI → Fin D → ℝ)
    (uIdx : Fin B → Fin nU) (iIdx : Fin B → Fin nI) : ℝ :=
  tfSoftmaxCrossEntropy (tfOneHot B) (tfMatMulTransB (tfGather U uIdx) (tfGather I iIdx))

end

/-! ## Lemmas, claim theorems, witnesses and counterexamples -/

theorem mapGet_mapSet (k k' : String) (v : α) (m : List (String × α)) :
    mapGet k' (mapSet k v m) = if k = k' then some v else mapGet k' m := by
  induction m with
  | nil => by_cases h : k = k' <;> simp [mapSet, mapGet, h]
  | cons p m ih =>
      obtain ⟨a, b⟩ := p
      by_cases hak : a = k
      · subst hak
        by_cases h : a = k' <;> simp [mapSet, mapGet, h]
      · by_cases h : a = k'
        · subst h
          have : ¬ k = a := fun hh => hak hh.symm
          simp [mapSet, mapGet, hak, this]
        · simp [mapSet, mapGet, hak, h, ih]

theorem mapSet_eq_self {k : String} {v : α} {m : List (String × α)}
    (h : mapGet k m = some v) : mapSet k v m = m := by
  induction m with
  | nil => simp [mapGet] at h
  | cons p m ih =>
      obtain ⟨a, b⟩ := p
      by_cases hak : a = k
      · subst hak
        simp [mapGet] at h
        simp [mapSet, h]
      · simp [mapGet, hak] at h
        simp [mapSet, hak, ih h]

theorem idxOf?_isSome_iff {k : String} {l : List String} :
    (idxOf? k l).isSome = true ↔ k ∈ l := by
  induction l with
  | nil => simp [idxOf?]
  | cons x xs ih =>
      rw [idxOf?]
      by_cases h : x = k
      · simp [h]
      · have hk : k ≠ x := fun hh => h hh.symm
        rw [if_neg h, List.mem_cons]
        cases hx : idxOf? k xs with
        | none =>
            rw [hx] at ih
            simp only [Option.map_none', Option.isSome_none] at ih ⊢
            simp [hk, ih]
        | some i =>
            rw [hx] at ih
            simp only [Option.map_some', Option.isSome_some] at ih ⊢
            simp [ih.mp trivial]

theorem idxOf?_eq_none_iff {k : String} {l : List String} :
    idxOf? k l = none ↔ k ∉ l := by
  rw [← idxOf?_isSome_iff]
  cases idxOf? k l <;> simp

theorem idxOf?_getElem? {k : String} {l : List String} {i : Nat}
    (h : idxOf? k l = some i) : l[i]? = some k := by
  induction l generalizing i with
  | nil => simp [idxOf?] at h
  | cons x xs ih =>
      rw [idxOf?] at h
      by_cases hx : x = k
      · rw [if_pos hx] at h
        obtain rfl := Option.some.inj h
        simp [hx]
      · rw [if_neg hx] at h
        cases hi : idxOf? k xs with
        | none => rw [hi] at h; simp at h
        | some j =>
            rw [hi] at h
            simp only [Option.map_some'] at h
            obtain rfl := Option.some.inj h
            simpa using ih hi

theorem idxOf?_lt_length {k : String} {l : List String} {i : Nat}
    (h : idxOf? k l = some i) : i < l.length := by
  have h2 := idxOf?_getElem? h
  by_contra hge
  rw [List.getElem?_eq_none (Nat.le_of_not_lt hge)] at h2
  exact Option.noConfusion h2

theorem idxOf?_append_singleton (k x : String) (l : List String) :
    idxOf? k (l ++ [x]) =
      match idxOf? k l with
      | some i => some i
      | none => if x = k then some l.length else none := by
  induction l with
  | nil => by_cases hx : x = k <;> simp [idxOf?, hx]
  | cons y ys ih =>
      by_cases hy : y = k
      · simp [idxOf?, hy]
      · rw [List.cons_append, idxOf?, if_neg hy, ih, idxOf?, if_neg hy]
        cases hys : idxOf? k ys with
        | some i => simp
        | none => by_cases hx : x = k <;> simp [hx]

theorem getElem?_idxOf? {l : List String} (hnd : l.Nodup) {i : Nat} {k : String}
    (h : l[i]? = some k) : idxOf? k l = some i := by
  induction l generalizing i with
  | nil => simp at h
  | cons x xs ih =>
      rw [List.nodup_cons] at hnd
      obtain ⟨hx, hxs⟩ := hnd
      cases i with
      | zero =>
          simp only [List.getElem?_cons_zero] at h
          obtain rfl := Option.some.inj h
          simp [idxOf?]
      | succ j =>
          rw [List.getElem?_cons_succ] at h
          have hk : x ≠ k := by
            intro hh
            subst hh
            exact hx (List.getElem?_mem h)
          rw [idxOf?, if_neg hk, ih hxs h]
          rfl

theorem mem_dedupFirstAux {x : String} (l : List String) :
    ∀ acc, x ∈ dedupFirstAux acc l ↔ x ∈ acc ∨ x ∈ l := by
  induction l with
  | nil => intro acc; simp [dedupFirstAux]
  | cons y ys ih =>
      intro acc
      by_cases hy : y ∈ acc
      · rw [dedupFirstAux, if_pos hy, ih]
        constructor
        · rintro (h | h)
          · exact Or.inl h
          · exact Or.inr (List.mem_cons_of_mem _ h)
        · rintro (h | h)
          · exact Or.inl h
          · rcases List.mem_cons.mp h with h | h
            · exact Or.inl (h ▸ hy)
            · exact Or.inr h
      · rw [dedupFirstAux, if_neg hy, ih]
        simp only [List.mem_append, List.mem_singleton, List.mem_cons]
        tauto

theorem nodup_dedupFirstAux (l : List String) :
    ∀ acc, acc.Nodup → (dedupFirstAux acc l).Nodup := by
  induction l with
  | nil => intro acc h; exact h
  | cons y ys ih =>
      intro acc h
      by_cases hy : y ∈ acc
      · rw [dedupFirstAux, if_pos hy]; exact ih acc h
      · rw [dedupFirstAux, if_neg hy]
        exact ih _ (by simp [List.nodup_append, h, hy])

theorem mem_dedupFirst {x : String} {l : List String} : x ∈ dedupFirst l ↔ x ∈ l := by
  rw [dedupFirst, mem_dedupFirstAux]
  simp

theorem nodup_dedupFirst (l : List String) : (dedupFirst l).Nodup :=
  nodup_dedupFirstAux l [] List.nodup_nil

theorem dedupFirstAux_append (l₁ l₂ acc : List String) :
    dedupFirstAux acc (l₁ ++ l₂) = dedupFirstAux (dedupFirstAux acc l₁) l₂ := by
  induction l₁ generalizing acc with
  | nil => simp [dedupFirstAux]
  | cons x xs ih => simp only [List.cons_append, dedupFirstAux]; exact ih _

theorem dedupFirst_append_singleton (l : List String) (x : String) :
    dedupFirst (l ++ [x]) = setAdd (dedupFirst l) x := by
  rw [dedupFirst, dedupFirstAux_append]
  by_cases h : x ∈ dedupFirstAux [] l <;> simp [dedupFirstAux, setAdd, h, dedupFirst]

theorem insertLe_perm (le : α → α → Bool) (x : α) (l : List α) :
    List.Perm (insertLe le x l) (x :: l) := by
  induction l with
  | nil => simp [insertLe]
  | cons y ys ih =>
      by_cases h : le x y = true
      · simp [insertLe, h]
      · rw [insertLe]
        rw [if_neg h]
        exact ((ih.cons y).trans (List.Perm.swap x y ys))

theorem jsSort_perm (le : α → α → Bool) (l : List α) : List.Perm (jsSort le l) l := by
  induction l with
  | nil => simp [jsSort]
  | cons x xs ih => exact (insertLe_perm le x (jsSort le xs)).trans (ih.cons x)

theorem mem_insertLe {le : α → α → Bool} {x y : α} {l : List α} :
    y ∈ insertLe le x l ↔ y = x ∨ y ∈ l := by
  rw [(insertLe_perm le x l).mem_iff]
  simp

theorem length_insertLe (le : α → α → Bool) (x : α) (l : List α) :
    (insertLe le x l).length = l.length + 1 := by
  simpa using (insertLe_perm le x l).length_eq

theorem length_jsSort (le : α → α → Bool) (l : List α) :
    (jsSort le l).length = l.length := (jsSort_perm le l).length_eq

theorem mem_jsSort {le : α → α → Bool} {x : α} {l : List α} :
    x ∈ jsSort le l ↔ x ∈ l := (jsSort_perm le l).mem_iff

theorem pairwise_insertLe {le : α → α → Bool} {x : α} {l : List α}
    (hl : List.Pairwise (fun a b => le a b = true) l)
    (htot : ∀ y ∈ l, le x y = true ∨ le y x = true)
    (htr : ∀ y ∈ l, ∀ z ∈ l, le x y = true → le y z = true → le x z = true) :
    List.Pairwise (fun a b => le a b = true) (insertLe le x l) := by
  induction l with
  | nil => simp [insertLe]
  | cons y ys ih =>
      rcases hl with _ | ⟨hy, hys⟩
      by_cases h : le x y = true
      · rw [insertLe, if_pos h]
        refine List.Pairwise.cons ?_ (List.Pairwise.cons hy hys)
        intro z hz
        rcases List.mem_cons.mp hz with hz | hz
        · exact hz ▸ h
        · exact htr y (List.mem_cons_self y ys) z (List.mem_cons_of_mem _ hz) h (hy z hz)
      · rw [insertLe, if_neg h]
        have hyx : le y x = true := by
          rcases htot y (List.mem_cons_self y ys) with hc | hc
          · exact absurd hc h
          · exact hc
        refine List.Pairwise.cons ?_ ?_
        · intro z hz
          rcases mem_insertLe.mp hz with hz | hz
          · exact hz ▸ hyx
          · exact hy z hz
        · exact ih hys (fun z hz => htot z (List.mem_cons_of_mem _ hz))
            (fun z hz w hw => htr z (List.mem_cons_of_mem _ hz) w (List.mem_cons_of_mem _ hw))

theorem pairwise_jsSort {le : α → α → Bool} {l : List α}
    (htot : ∀ a ∈ l, ∀ b ∈ l, le a b = true ∨ le b a = true)
    (htr : ∀ a ∈ l, ∀ b ∈ l, ∀ c ∈ l, le a b = true → le b c = true → le a c = true) :
    List.Pairwise (fun a b => le a b = true) (jsSort le l) := by
  induction l with
  | nil => simp [jsSort]
  | cons x xs ih =>
      rw [jsSort]
      have hmem : ∀ y ∈ jsSort le xs, y ∈ x :: xs := by
        intro y hy
        exact List.mem_cons_of_mem _ (mem_jsSort.mp hy)
      refine pairwise_insertLe ?_ ?_ ?_
      · exact ih
          (fun a ha b hb =>
            htot a (List.mem_cons_of_mem _ ha) b (List.mem_cons_of_mem _ hb))
          (fun a ha b hb c hc =>
            htr a (List.mem_cons_of_mem _ ha) b (List.mem_cons_of_mem _ hb)
              c (List.mem_cons_of_mem _ hc))
      · intro y hy
        exact htot x (List.mem_cons_self x xs) y (hmem y hy)
      · intro y hy z hz
        exact htr x (List.mem_cons_self x xs) y (hmem y hy) z (hmem z hz)

theorem processItemLine_skip {st : Store} {n : Nat} {parts : List String}
    (h : mapHas (parts.getD 0 "") st.itemMap = true) :
    processItemLine st n parts = (st, n) := by
  simp only [List.getD_eq_getElem?_getD] at h
  simp [processItemLine, h]

theorem processItemLine_new {st : Store} {n : Nat} {parts : List String}
    (h : mapHas (parts.getD 0 "") st.itemMap = false) :
    processItemLine st n parts =
      ({ st with
          itemMap := mapSet (parts.getD 0 "") n st.itemMap,
          reverseItemMap := st.reverseItemMap ++ [parts.getD 0 ""],
          items := mapSet (parts.getD 0 "")
            ⟨parts.getD 1 "", findYear (parts.getD 1 "").toList, n⟩ st.items }, n + 1) := by
  simp only [List.getD_eq_getElem?_getD] at h
  simp [processItemLine, h]

theorem processRatingLine_skip {acc : RatingAcc} {parts : List String}
    (h : keepLine acc.st.itemMap parts = false) :
    processRatingLine acc parts = acc := by
  simp [processRatingLine, keepLine] at h ⊢
  intro hh
  rw [h] at hh
  exact absurd hh (by simp)

theorem processRatingLine_hit {acc : RatingAcc} {parts : List String} {i : Nat}
    (h : keepLine acc.st.itemMap parts = true)
    (hu : mapGet (parts.getD 0 "") acc.st.userMap = some i) :
    processRatingLine acc parts =
      ⟨{ acc.st with
          userRatedItems :=
            mapSet (parts.getD 0 "")
              (setAdd ((mapGet (parts.getD 0 "") acc.st.userRatedItems).getD [])
                (parts.getD 1 ""))
              acc.st.userRatedItems,
          userTopRated :=
            mapSet (parts.getD 0 "")
              (((mapGet (parts.getD 0 "") acc.st.userTopRated).getD [])
                ++ [mkInteraction acc.st.userMap acc.st.itemMap parts])
              acc.st.userTopRated },
        acc.raw ++ [mkInteraction acc.st.userMap acc.st.itemMap parts],
        acc.userIndex⟩ := by
  rw [keepLine] at h
  rw [processRatingLine]
  simp only [h, if_true, hu, mkInteraction]
  rfl

theorem processRatingLine_new {acc : RatingAcc} {parts : List String}
    (h : keepLine acc.st.itemMap parts = true)
    (hu : mapGet (parts.getD 0 "") acc.st.userMap = none) :
    processRatingLine acc parts =
      ⟨{ acc.st with
          userMap := mapSet (parts.getD 0 "") acc.userIndex acc.st.userMap,
          reverseUserMap := acc.st.reverseUserMap ++ [parts.getD 0 ""],
          userRatedItems :=
            mapSet (parts.getD 0 "")
              (setAdd ((mapGet (parts.getD 0 "") acc.st.userRatedItems).getD [])
                (parts.getD 1 ""))
              acc.st.userRatedItems,
          userTopRated :=
            mapSet (parts.getD 0 "")
              (((mapGet (parts.getD 0 "") acc.st.userTopRated).getD [])
                ++ [⟨parts.getD 0 "", parts.getD 1 "", jsParseInt (parts.getD 2 ""),
                     jsParseInt (parts.getD 3 ""), acc.userIndex,
                     (mapGet (parts.getD 1 "") acc.st.itemMap).getD 0⟩])
              acc.st.userTopRated },
        acc.raw ++ [⟨parts.getD 0 "", parts.getD 1 "", jsParseInt (parts.getD 2 ""),
           jsParseInt (parts.getD 3 ""), acc.userIndex,
           (mapGet (parts.getD 1 "") acc.st.itemMap).getD 0⟩],
        acc.userIndex + 1⟩ := by
  rw [keepLine] at h
  rw [processRatingLine]
  simp only [h, if_true, hu]

theorem mem_reverseUserMap_of_mapGet {st : Store} {raw : List Interaction} {uCtr : Nat}
    (h : LoadInv st raw uCtr) {k : String} {i : Nat}
    (hk : mapGet k st.userMap = some i) : k ∈ st.reverseUserMap := by
  have := h.userMaps k
  rw [hk] at this
  exact idxOf?_isSome_iff.mp (by rw [← this]; rfl)

theorem not_mem_reverseUserMap_of_mapGet {st : Store} {raw : List Interaction} {uCtr : Nat}
    (h : LoadInv st raw uCtr) {k : String}
    (hk : mapGet k st.userMap = none) : k ∉ st.reverseUserMap := by
  have := h.userMaps k
  rw [hk] at this
  exact idxOf?_eq_none_iff.mp this.symm

theorem filter_userId_append {raw : List Interaction} {t : Interaction} {u : String} :
    (raw ++ [t]).filter (fun s => s.userId == u) =
      raw.filter (fun s => s.userId == u) ++ if t.userId = u then [t] else [] := by
  rw [List.filter_append]
  by_cases h : t.userId = u <;> simp [h]

theorem raw_filter_eq_nil {st : Store} {raw : List Interaction} {uCtr : Nat}
    (h : LoadInv st raw uCtr) {u : String} (hu : u ∉ st.reverseUserMap) :
    raw.filter (fun s => s.userId == u) = [] := by
  rw [List.filter_eq_nil_iff]
  intro t ht
  intro htu
  apply hu
  rw [← beq_iff_eq.mp htu]
  exact mem_reverseUserMap_of_mapGet h (h.rawUser t ht)

theorem notMemAppendSingleton {w x : String} {l : List String}
    (h1 : w ∉ l) (h2 : w ≠ x) : w ∉ l ++ [x] := by
  rw [List.mem_append, List.mem_singleton]
  rintro (hc | hc)
  · exact h1 hc
  · exact h2 hc

theorem processRatingLine_inv {acc : RatingAcc}
    (h : LoadInv acc.st acc.raw acc.userIndex) (parts : List String) :
    LoadInv (processRatingLine acc parts).st (processRatingLine acc parts).raw
      (processRatingLine acc parts).userIndex := by
  cases hkeep : keepLine acc.st.itemMap parts with
  | false => rw [processRatingLine_skip hkeep]; exact h
  | true =>
    have hitem : mapGet (parts.getD 1 "") acc.st.itemMap =
        some ((mapGet (parts.getD 1 "") acc.st.itemMap).getD 0) := by
      rw [keepLine, mapHas] at hkeep
      obtain ⟨x, hx⟩ := Option.isSome_iff_exists.mp hkeep
      rw [hx]
      rfl
    cases hu : mapGet (parts.getD 0 "") acc.st.userMap with
    | some i =>
        rw [processRatingLine_hit hkeep hu]
        have hmem : parts.getD 0 "" ∈ acc.st.reverseUserMap :=
          mem_reverseUserMap_of_mapGet h hu
        refine ⟨h.counter, h.userMaps, ?_, ?_, ?_, ?_, ?_⟩ <;>
          dsimp only [mkInteraction]
        · rw [List.map_append]
          simp only [List.map_cons, List.map_nil]
          try dsimp only
          rw [dedupFirst_append_singleton, ← h.userOrder]
          simp only [setAdd]
          rw [if_pos hmem]
        · intro t ht
          rcases List.mem_append.mp ht with ht | ht
          · exact h.rawUser t ht
          · obtain rfl := List.mem_singleton.mp ht
            try dsimp only
            rw [hu]
            rfl
        · intro t ht
          rcases List.mem_append.mp ht with ht | ht
          · exact h.rawItem t ht
          · obtain rfl := List.mem_singleton.mp ht
            exact hitem
        · intro w
          rw [mapGet_mapSet]
          by_cases hw : parts.getD 0 "" = w
          · subst hw
            rw [if_pos rfl, if_pos hmem]
            rw [filter_userId_append]
            try dsimp only
            rw [if_pos rfl, List.map_append]
            simp only [List.map_cons, List.map_nil]
            try dsimp only
            rw [dedupFirst_append_singleton]
            rw [h.rated, if_pos hmem]
            rfl
          · rw [if_neg hw, filter_userId_append]
            try dsimp only
            rw [if_neg hw, List.append_nil]
            exact h.rated w
        · intro w
          rw [mapGet_mapSet]
          by_cases hw : parts.getD 0 "" = w
          · subst hw
            rw [if_pos rfl, if_pos hmem]
            rw [filter_userId_append]
            try dsimp only
            rw [if_pos rfl]
            rw [h.top, if_pos hmem]
            rfl
          · rw [if_neg hw, filter_userId_append]
            try dsimp only
            rw [if_neg hw, List.append_nil]
            exact h.top w
    | none =>
        rw [processRatingLine_new hkeep hu]
        have hnmem : parts.getD 0 "" ∉ acc.st.reverseUserMap :=
          not_mem_reverseUserMap_of_mapGet h hu
        refine ⟨?_, ?_, ?_, ?_, ?_, ?_, ?_⟩ <;> dsimp only
        · rw [h.counter, List.length_append]
          rfl
        · intro k
          rw [mapGet_mapSet, idxOf?_append_singleton]
          by_cases hk : parts.getD 0 "" = k
          · subst hk
            have hnone : idxOf? (parts.getD 0 "") acc.st.reverseUserMap = none := by
              rw [← h.userMaps]
              exact hu
            rw [if_pos rfl, hnone]
            try dsimp only
            rw [if_pos rfl, h.counter]
          · rw [if_neg hk, h.userMaps k]
            cases idxOf? k acc.st.reverseUserMap with
            | some j => rfl
            | none => dsimp only; rw [if_neg hk]
        · rw [List.map_append]
          simp only [List.map_cons, List.map_nil]
          try dsimp only
          rw [dedupFirst_append_singleton, ← h.userOrder]
          simp only [setAdd]
          rw [if_neg hnmem]
        · intro t ht
          rcases List.mem_append.mp ht with ht | ht
          · have hold := h.rawUser t ht
            have htu : t.userId ≠ parts.getD 0 "" := by
              intro hh
              rw [hh, hu] at hold
              exact Option.noConfusion hold
            rw [mapGet_mapSet, if_neg (fun hh => htu hh.symm)]
            exact hold
          · obtain rfl := List.mem_singleton.mp ht
            try dsimp only
            rw [mapGet_mapSet, if_pos rfl]
        · intro t ht
          rcases List.mem_append.mp ht with ht | ht
          · exact h.rawItem t ht
          · obtain rfl := List.mem_singleton.mp ht
            exact hitem
        · intro w
          rw [mapGet_mapSet]
          by_cases hw : parts.getD 0 "" = w
          · subst hw
            rw [if_pos rfl]
            rw [if_pos (by simp)]
            rw [filter_userId_append]
            try dsimp only
            rw [if_pos rfl, raw_filter_eq_nil h hnmem, List.nil_append]
            simp only [List.map_cons, List.map_nil]
            try dsimp only
            rw [h.rated, if_neg hnmem]
            simp [setAdd, dedupFirst, dedupFirstAux]
          · rw [if_neg hw]
            rw [filter_userId_append]
            try dsimp only
            rw [if_neg hw, List.append_nil, h.rated]
            by_cases hwm : w ∈ acc.st.reverseUserMap
            · rw [if_pos hwm, if_pos (by simp [hwm])]
            · rw [if_neg hwm, if_neg (notMemAppendSingleton hwm (fun hh => hw hh.symm))]
        · intro w
          rw [mapGet_mapSet]
          by_cases hw : parts.getD 0 "" = w
          · subst hw
            rw [if_pos rfl]
            rw [if_pos (by simp)]
            rw [filter_userId_append]
            try dsimp only
            rw [if_pos rfl, raw_filter_eq_nil h hnmem, List.nil_append]
            rw [h.top, if_neg hnmem]
            rfl
          · rw [if_neg hw]
            rw [filter_userId_append]
            try dsimp only
            rw [if_neg hw, List.append_nil, h.top]
            by_cases hwm : w ∈ acc.st.reverseUserMap
            · rw [if_pos hwm, if_pos (by simp [hwm])]
            · rw [if_neg hwm, if_neg (notMemAppendSingleton hwm (fun hh => hw hh.symm))]

theorem processRatingLines_inv (lines : List (List String)) :
    ∀ acc : RatingAcc, LoadInv acc.st acc.raw acc.userIndex →
      LoadInv (processRatingLines acc lines).st (processRatingLines acc lines).raw
        (processRatingLines acc lines).userIndex := by
  induction lines with
  | nil => intro acc h; exact h
  | cons parts rest ih =>
      intro acc h
      rw [processRatingLines]
      exact ih _ (processRatingLine_inv h parts)

theorem processItemLines_spec (lines : List (List String)) :
    ∀ st n, n = st.reverseItemMap.length →
      (∀ k, mapGet k st.itemMap = idxOf? k st.reverseItemMap) →
      (processItemLines st n lines).reverseItemMap =
          dedupFirstAux st.reverseItemMap (lines.map itemIdOf) ∧
        (∀ k, mapGet k (processItemLines st n lines).itemMap =
          idxOf? k (processItemLines st n lines).reverseItemMap) := by
  induction lines with
  | nil => intro st n hn hm; exact ⟨rfl, hm⟩
  | cons parts rest ih =>
      intro st n hn hm
      rw [processItemLines]
      cases hhas : mapHas (parts.getD 0 "") st.itemMap with
      | true =>
          rw [processItemLine_skip hhas]
          have hmem : parts.getD 0 "" ∈ st.reverseItemMap := by
            rw [mapHas, hm] at hhas
            exact idxOf?_isSome_iff.mp hhas
          have := ih st n hn hm
          refine ⟨?_, this.2⟩
          rw [this.1]
          simp only [List.map_cons, dedupFirstAux, itemIdOf]
          rw [if_pos hmem]
      | false =>
          rw [processItemLine_new hhas]
          have hnone : mapGet (parts.getD 0 "") st.itemMap = none := by
            rw [mapHas] at hhas
            cases hc : mapGet (parts.getD 0 "") st.itemMap with
            | none => rfl
            | some v => rw [hc] at hhas; exact Bool.noConfusion hhas
          have hnmem : parts.getD 0 "" ∉ st.reverseItemMap := by
            rw [hm] at hnone
            exact idxOf?_eq_none_iff.mp hnone
          have hn' : n + 1 = (st.reverseItemMap ++ [parts.getD 0 ""]).length := by
            rw [List.length_append, hn]
            rfl
          have hm' : ∀ k,
              mapGet k (mapSet (parts.getD 0 "") n st.itemMap) =
                idxOf? k (st.reverseItemMap ++ [parts.getD 0 ""]) := by
            intro k
            rw [mapGet_mapSet, idxOf?_append_singleton]
            by_cases hk : parts.getD 0 "" = k
            · subst hk
              have hidx : idxOf? (parts.getD 0 "") st.reverseItemMap = none := by
                rw [← hm]
                exact hnone
              rw [if_pos rfl, hidx]
              dsimp only
              rw [if_pos rfl, hn]
            · rw [if_neg hk, hm k]
              cases idxOf? k st.reverseItemMap with
              | some j => rfl
              | none => dsimp only; rw [if_neg hk]
          have := ih
            ({ st with
                itemMap := mapSet (parts.getD 0 "") n st.itemMap,
                reverseItemMap := st.reverseItemMap ++ [parts.getD 0 ""],
                items := mapSet (parts.getD 0 "")
                  ⟨parts.getD 1 "", findYear (parts.getD 1 "").toList, n⟩ st.items })
            (n + 1) hn' hm'
          refine ⟨?_, this.2⟩
          rw [this.1]
          simp only [List.map_cons, dedupFirstAux, itemIdOf]
          rw [if_neg hnmem]

theorem processItemLines_frame (lines : List (List String)) :
    ∀ st n,
      (processItemLines st n lines).interactions = st.interactions ∧
      (processItemLines st n lines).userMap = st.userMap ∧
      (processItemLines st n lines).reverseUserMap = st.reverseUserMap ∧
      (processItemLines st n lines).userTopRated = st.userTopRated ∧
      (processItemLines st n lines).userRatedItems = st.userRatedItems ∧
      (processItemLines st n lines).testUsers = st.testUsers ∧
      (processItemLines st n lines).numUsers = st.numUsers ∧
      (processItemLines st n lines).numItems = st.numItems := by
  induction lines with
  | nil => intro st n; exact ⟨rfl, rfl, rfl, rfl, rfl, rfl, rfl, rfl⟩
  | cons parts rest ih =>
      intro st n
      rw [processItemLines]
      cases hhas : mapHas (parts.getD 0 "") st.itemMap with
      | true => rw [processItemLine_skip hhas]; exact ih st n
      | false => rw [processItemLine_new hhas]; exact ih _ _

/-- All item lines whose id is already present leave the metadata pass
without effect (used for the second load of the same dataset). -/
theorem processItemLines_allKnown (lines : List (List String)) :
    ∀ st n, (∀ parts ∈ lines, mapHas (parts.getD 0 "") st.itemMap = true) →
      processItemLines st n lines = st := by
  induction lines with
  | nil => intro st n _; rfl
  | cons parts rest ih =>
      intro st n hall
      rw [processItemLines, processItemLine_skip (hall parts (List.mem_cons_self parts rest))]
      exact ih st n (fun q hq => hall q (List.mem_cons_of_mem _ hq))

theorem processRatingLine_frame (acc : RatingAcc) (parts : List String) :
    (processRatingLine acc parts).st.interactions = acc.st.interactions ∧
    (processRatingLine acc parts).st.items = acc.st.items ∧
    (processRatingLine acc parts).st.itemMap = acc.st.itemMap ∧
    (processRatingLine acc parts).st.reverseItemMap = acc.st.reverseItemMap ∧
    (processRatingLine acc parts).st.testUsers = acc.st.testUsers ∧
    (processRatingLine acc parts).st.numUsers = acc.st.numUsers ∧
    (processRatingLine acc parts).st.numItems = acc.st.numItems := by
  cases hkeep : keepLine acc.st.itemMap parts with
  | false => rw [processRatingLine_skip hkeep]; exact ⟨rfl, rfl, rfl, rfl, rfl, rfl, rfl⟩
  | true =>
      cases hu : mapGet (parts.getD 0 "") acc.st.userMap with
      | some i => rw [processRatingLine_hit hkeep hu]; exact ⟨rfl, rfl, rfl, rfl, rfl, rfl, rfl⟩
      | none => rw [processRatingLine_new hkeep hu]; exact ⟨rfl, rfl, rfl, rfl, rfl, rfl, rfl⟩

theorem processRatingLines_frame (lines : List (List String)) :
    ∀ acc : RatingAcc,
      (processRatingLines acc lines).st.interactions = acc.st.interactions ∧
      (processRatingLines acc lines).st.items = acc.st.items ∧
      (processRatingLines acc lines).st.itemMap = acc.st.itemMap ∧
      (processRatingLines acc lines).st.reverseItemMap = acc.st.reverseItemMap ∧
      (processRatingLines acc lines).st.testUsers = acc.st.testUsers ∧
      (processRatingLines acc lines).st.numUsers = acc.st.numUsers ∧
      (processRatingLines acc lines).st.numItems = acc.st.numItems := by
  induction lines with
  | nil => intro acc; exact ⟨rfl, rfl, rfl, rfl, rfl, rfl, rfl⟩
  | cons parts rest ih =>
      intro acc
      rw [processRatingLines]
      have h1 := processRatingLine_frame acc parts
      have h2 := ih (processRatingLine acc parts)
      exact ⟨h2.1.trans h1.1, h2.2.1.trans h1.2.1, h2.2.2.1.trans h1.2.2.1,
        h2.2.2.2.1.trans h1.2.2.2.1, h2.2.2.2.2.1.trans h1.2.2.2.2.1,
        h2.2.2.2.2.2.1.trans h1.2.2.2.2.2.1, h2.2.2.2.2.2.2.trans h1.2.2.2.2.2.2⟩

/-- The user map only grows, and existing entries keep their value. -/
theorem processRatingLine_userMap_mono {acc : RatingAcc} {parts : List String}
    {k : String} {v : Nat} (h : mapGet k acc.st.userMap = some v) :
    mapGet k (processRatingLine acc parts).st.userMap = some v := by
  cases hkeep : keepLine acc.st.itemMap parts with
  | false => rw [processRatingLine_skip hkeep]; exact h
  | true =>
      cases hu : mapGet (parts.getD 0 "") acc.st.userMap with
      | some i => rw [processRatingLine_hit hkeep hu]; exact h
      | none =>
          rw [processRatingLine_new hkeep hu]
          dsimp only
          rw [mapGet_mapSet]
          have : parts.getD 0 "" ≠ k := by
            intro hh
            rw [hh, h] at hu
            exact Option.noConfusion hu
          rw [if_neg this]
          exact h

theorem processRatingLines_userMap_mono (lines : List (List String)) :
    ∀ (acc : RatingAcc) (k : String) (v : Nat), mapGet k acc.st.userMap = some v →
      mapGet k (processRatingLines acc lines).st.userMap = some v := by
  induction lines with
  | nil => intro acc k v h; exact h
  | cons parts rest ih =>
      intro acc k v h
      rw [processRatingLines]
      exact ih _ k v (processRatingLine_userMap_mono h)

/-- After a kept line, the user of that line is indexed. -/
theorem processRatingLine_userMap_has {acc : RatingAcc} {parts : List String}
    (hkeep : keepLine acc.st.itemMap parts = true) :
    ∃ j, mapGet (parts.getD 0 "") (processRatingLine acc parts).st.userMap = some j := by
  cases hu : mapGet (parts.getD 0 "") acc.st.userMap with
  | some i =>
      rw [processRatingLine_hit hkeep hu]
      exact ⟨i, hu⟩
  | none =>
      rw [processRatingLine_new hkeep hu]
      refine ⟨acc.userIndex, ?_⟩
      dsimp only
      rw [mapGet_mapSet, if_pos rfl]

/-- A kept line appends exactly the `mkInteraction` record, read over the
user map as it stands right after the step. -/
theorem processRatingLine_raw_kept {acc : RatingAcc} {parts : List String}
    (hkeep : keepLine acc.st.itemMap parts = true) :
    (processRatingLine acc parts).raw =
      acc.raw ++
        [mkInteraction (processRatingLine acc parts).st.userMap acc.st.itemMap parts] := by
  cases hu : mapGet (parts.getD 0 "") acc.st.userMap with
  | some i =>
      rw [processRatingLine_hit hkeep hu]
  | none =>
      rw [processRatingLine_new hkeep hu]
      dsimp only
      rw [mkInteraction]
      rw [mapGet_mapSet, if_pos rfl]
      rfl

/-- Characterization of the raw interaction list: every kept line yields
exactly the record `mkInteraction` built over the final user map. -/
theorem processRatingLines_raw (lines : List (List String)) :
    ∀ acc : RatingAcc, (∀ t ∈ acc.raw, mapGet t.userId acc.st.userMap = some t.uIdx) →
      (processRatingLines acc lines).raw =
        acc.raw ++
          (lines.filter (keepLine acc.st.itemMap)).map
            (mkInteraction (processRatingLines acc lines).st.userMap acc.st.itemMap) := by
  induction lines with
  | nil =>
      intro acc hraw
      simp [processRatingLines]
  | cons parts rest ih =>
      intro acc hraw
      rw [processRatingLines]
      cases hkeep : keepLine acc.st.itemMap parts with
      | false =>
          rw [processRatingLine_skip hkeep]
          rw [List.filter_cons_of_neg (by simp [hkeep])]
          exact ih acc hraw
      | true =>
          rw [List.filter_cons_of_pos (by simp [hkeep])]
          have hstepraw := processRatingLine_raw_kept hkeep
          obtain ⟨j, hj⟩ := processRatingLine_userMap_has hkeep
          have hrawstep : ∀ t ∈ (processRatingLine acc parts).raw,
              mapGet t.userId (processRatingLine acc parts).st.userMap = some t.uIdx := by
            rw [hstepraw]
            intro t ht
            rcases List.mem_append.mp ht with ht | ht
            · exact processRatingLine_userMap_mono (hraw t ht)
            · obtain rfl := List.mem_singleton.mp ht
              dsimp only [mkInteraction]
              rw [hj]
              rfl
          have hind := ih (processRatingLine acc parts) hrawstep
          have hitemmap : (processRatingLine acc parts).st.itemMap = acc.st.itemMap :=
            (processRatingLine_frame acc parts).2.2.1
          rw [hitemmap] at hind
          have hj2 := processRatingLines_userMap_mono rest (processRatingLine acc parts)
            (parts.getD 0 "") j hj
          have hmk :
              mkInteraction (processRatingLine acc parts).st.userMap acc.st.itemMap parts =
                mkInteraction
                  (processRatingLines (processRatingLine acc parts) rest).st.userMap
                  acc.st.itemMap parts := by
            rw [mkInteraction, mkInteraction, hj, hj2]
          rw [hind, hstepraw, hmk, List.append_assoc, List.singleton_append, List.map_cons]

theorem loadData_interactions_eq (cfg : Config) (il rl : List (List String)) (st0 : Store) :
    (loadData cfg il rl st0).interactions = (loadAcc cfg il rl st0).raw := rfl

theorem loadData_items_eq (cfg : Config) (il rl : List (List String)) (st0 : Store) :
    (loadData cfg il rl st0).items = (loadAcc cfg il rl st0).st.items := rfl

theorem loadData_userMap_eq (cfg : Config) (il rl : List (List String)) (st0 : Store) :
    (loadData cfg il rl st0).userMap = (loadAcc cfg il rl st0).st.userMap := rfl

theorem loadData_itemMap_eq (cfg : Config) (il rl : List (List String)) (st0 : Store) :
    (loadData cfg il rl st0).itemMap = (loadAcc cfg il rl st0).st.itemMap := rfl

theorem loadData_revUser_eq (cfg : Config) (il rl : List (List String)) (st0 : Store) :
    (loadData cfg il rl st0).reverseUserMap = (loadAcc cfg il rl st0).st.reverseUserMap := rfl

theorem loadData_revItem_eq (cfg : Config) (il rl : List (List String)) (st0 : Store) :
    (loadData cfg il rl st0).reverseItemMap = (loadAcc cfg il rl st0).st.reverseItemMap := rfl

theorem loadData_ratedItems_eq (cfg : Config) (il rl : List (List String)) (st0 : Store) :
    (loadData cfg il rl st0).userRatedItems = (loadAcc cfg il rl st0).st.userRatedItems := rfl

theorem loadData_topRated_eq (cfg : Config) (il rl : List (List String)) (st0 : Store) :
    (loadData cfg il rl st0).userTopRated =
      (loadAcc cfg il rl st0).st.userTopRated.map
        (fun q : String × List Interaction =>
          (q.1, (jsSort interactionLe q.2).take cfg.topK)) := rfl

theorem loadData_testUsers_eq (cfg : Config) (il rl : List (List String)) (st0 : Store) :
    (loadData cfg il rl st0).testUsers =
      (loadAcc cfg il rl st0).st.reverseUserMap.filter
        (fun u => cfg.minRatingsForTest ≤
          ((mapGet u (loadAcc cfg il rl st0).st.userRatedItems).getD []).length) := rfl

theorem loadData_numUsers_eq (cfg : Config) (il rl : List (List String)) (st0 : Store) :
    (loadData cfg il rl st0).numUsers = (loadAcc cfg il rl st0).st.reverseUserMap.length := rfl

theorem loadData_numItems_eq (cfg : Config) (il rl : List (List String)) (st0 : Store) :
    (loadData cfg il rl st0).numItems = (loadAcc cfg il rl st0).st.reverseItemMap.length := rfl

/-- Lemma: `mapGet` commutes with mapping a function over the values. -/
theorem mapGet_map_value (f : α → β) (m : List (String × α)) (k : String) :
    mapGet k (m.map (fun q => (q.1, f q.2))) = (mapGet k m).map f := by
  induction m with
  | nil => rfl
  | cons p m ih =>
      obtain ⟨a, b⟩ := p
      by_cases h : a = k <;> simp [mapGet, h, ih]

/-- The interaction pass of a fresh load starts from empty user structures. -/
theorem loadInv_start (il : List (List String)) :
    LoadInv (processItemLines Store.empty 0 il) [] 0 := by
  have hf := processItemLines_frame il Store.empty 0
  refine ⟨?_, ?_, ?_, ?_, ?_, ?_, ?_⟩
  · rw [hf.2.2.1]; rfl
  · intro k; rw [hf.2.1, hf.2.2.1]; rfl
  · rw [hf.2.2.1]; rfl
  · intro t ht; exact absurd ht (List.not_mem_nil t)
  · intro t ht; exact absurd ht (List.not_mem_nil t)
  · intro u; rw [hf.2.2.2.2.1, hf.2.2.1]; simp [mapGet, Store.empty]
  · intro u; rw [hf.2.2.2.1, hf.2.2.1]; simp [mapGet, Store.empty]

theorem loadAcc_inv (cfg : Config) (il rl : List (List String)) :
    LoadInv (loadAcc cfg il rl Store.empty).st (loadAcc cfg il rl Store.empty).raw
      (loadAcc cfg il rl Store.empty).userIndex :=
  processRatingLines_inv (rl.take cfg.maxInteractions) ⟨processItemLines Store.empty 0 il, [], 0⟩
    (loadInv_start il)

theorem loadData_userMaps (cfg : Config) (il rl : List (List String)) (k : String) :
    mapGet k (loadData cfg il rl Store.empty).userMap =
      idxOf? k (loadData cfg il rl Store.empty).reverseUserMap := by
  rw [loadData_userMap_eq, loadData_revUser_eq]
  exact (loadAcc_inv cfg il rl).userMaps k

theorem loadData_userOrder (cfg : Config) (il rl : List (List String)) :
    (loadData cfg il rl Store.empty).reverseUserMap =
      dedupFirst ((loadData cfg il rl Store.empty).interactions.map Interaction.userId) := by
  rw [loadData_revUser_eq, loadData_interactions_eq]
  exact (loadAcc_inv cfg il rl).userOrder

theorem loadData_rawUser (cfg : Config) (il rl : List (List String)) :
    ∀ t ∈ (loadData cfg il rl Store.empty).interactions,
      mapGet t.userId (loadData cfg il rl Store.empty).userMap = some t.uIdx := by
  rw [loadData_userMap_eq, loadData_interactions_eq]
  exact (loadAcc_inv cfg il rl).rawUser

theorem loadData_rawItem (cfg : Config) (il rl : List (List String)) :
    ∀ t ∈ (loadData cfg il rl Store.empty).interactions,
      mapGet t.itemId (loadData cfg il rl Store.empty).itemMap = some t.iIdx := by
  rw [loadData_itemMap_eq, loadData_interactions_eq]
  exact (loadAcc_inv cfg il rl).rawItem

theorem loadData_rated (cfg : Config) (il rl : List (List String)) (u : String) :
    mapGet u (loadData cfg il rl Store.empty).userRatedItems =
      if u ∈ (loadData cfg il rl Store.empty).reverseUserMap
      then some (dedupFirst
        (((loadData cfg il rl Store.empty).interactions.filter
            (fun t => t.userId == u)).map Interaction.itemId))
      else none := by
  rw [loadData_ratedItems_eq, loadData_revUser_eq, loadData_interactions_eq]
  exact (loadAcc_inv cfg il rl).rated u

theorem loadData_topRated (cfg : Config) (il rl : List (List String)) (u : String) :
    mapGet u (loadData cfg il rl Store.empty).userTopRated =
      if u ∈ (loadData cfg il rl Store.empty).reverseUserMap
      then some ((jsSort interactionLe
        ((loadData cfg il rl Store.empty).interactions.filter
          (fun t => t.userId == u))).take cfg.topK)
      else none := by
  rw [loadData_topRated_eq,
    mapGet_map_value (fun l => (jsSort interactionLe l).take cfg.topK),
    loadData_revUser_eq, loadData_interactions_eq]
  rw [(loadAcc_inv cfg il rl).top u]
  by_cases hm : u ∈ (loadAcc cfg il rl Store.empty).st.reverseUserMap <;> simp [hm]

theorem loadData_itemMap_spec (cfg : Config) (il rl : List (List String)) :
    (loadData cfg il rl Store.empty).reverseItemMap = dedupFirst (il.map itemIdOf) ∧
    ∀ k, mapGet k (loadData cfg il rl Store.empty).itemMap =
      idxOf? k (loadData cfg il rl Store.empty).reverseItemMap := by
  have hspec := processItemLines_spec il Store.empty 0 rfl (fun k => rfl)
  have hfr := processRatingLines_frame (rl.take cfg.maxInteractions)
    ⟨processItemLines Store.empty 0 il, [], 0⟩
  constructor
  · rw [loadData_revItem_eq, loadAcc, hfr.2.2.2.1, hspec.1]
    rfl
  · intro k
    rw [loadData_itemMap_eq, loadData_revItem_eq, loadAcc, hfr.2.2.1, hfr.2.2.2.1]
    exact hspec.2 k

theorem loadData_interactions_spec (cfg : Config) (il rl : List (List String)) :
    (loadData cfg il rl Store.empty).interactions =
      ((rl.take cfg.maxInteractions).filter
          (keepLine (loadData cfg il rl Store.empty).itemMap)).map
        (mkInteraction (loadData cfg il rl Store.empty).userMap
          (loadData cfg il rl Store.empty).itemMap) := by
  have hraw := processRatingLines_raw (rl.take cfg.maxInteractions)
    ⟨processItemLines Store.empty 0 il, [], 0⟩
    (fun t ht => absurd ht (List.not_mem_nil t))
  have hfr := processRatingLines_frame (rl.take cfg.maxInteractions)
    ⟨processItemLines Store.empty 0 il, [], 0⟩
  rw [loadData_interactions_eq, loadData_userMap_eq, loadData_itemMap_eq, loadAcc]
  rw [hfr.2.2.1]
  rw [hraw]
  rfl

theorem interactionLe_some {a b : Interaction} {ra rb ta tb : Int}
    (ha : a.rating = some ra) (hb : b.rating = some rb)
    (hta : a.ts = some ta) (htb : b.ts = some tb) :
    interactionLe a b = true ↔ (rb < ra ∨ (rb = ra ∧ tb ≤ ta)) := by
  rw [interactionLe, interactionCmp, ha, hb, hta, htb]
  by_cases h : rb = ra
  · subst h
    rw [show jsNeq (some rb) (some rb) = false by simp [jsNeq]]
    rw [if_neg (by simp)]
    rw [show jsSub (some tb) (some ta) = some (tb - ta) from rfl]
    rw [show cmpVal (some (tb - ta)) = tb - ta from rfl]
    rw [decide_eq_true_eq]
    constructor
    · intro hle
      exact Or.inr ⟨rfl, by omega⟩
    · rintro (hlt | ⟨-, hle⟩)
      · omega
      · omega
  · rw [show jsNeq (some rb) (some ra) = true by simp [jsNeq, bne_iff_ne, h]]
    rw [if_pos rfl]
    rw [show jsSub (some rb) (some ra) = some (rb - ra) from rfl]
    rw [show cmpVal (some (rb - ra)) = rb - ra from rfl]
    rw [decide_eq_true_eq]
    constructor
    · intro hle
      exact Or.inl (by omega)
    · rintro (hlt | ⟨heq, -⟩)
      · omega
      · exact absurd heq h

theorem interactionLe_total {a b : Interaction}
    (ha : a.rating.isSome = true) (hb : b.rating.isSome = true)
    (hta : a.ts.isSome = true) (htb : b.ts.isSome = true) :
    interactionLe a b = true ∨ interactionLe b a = true := by
  obtain ⟨ra, hra⟩ := Option.isSome_iff_exists.mp ha
  obtain ⟨rb, hrb⟩ := Option.isSome_iff_exists.mp hb
  obtain ⟨ta, hta2⟩ := Option.isSome_iff_exists.mp hta
  obtain ⟨tb, htb2⟩ := Option.isSome_iff_exists.mp htb
  rw [interactionLe_some hra hrb hta2 htb2, interactionLe_some hrb hra htb2 hta2]
  omega

theorem interactionLe_trans {a b c : Interaction}
    (ha : a.rating.isSome = true) (hb : b.rating.isSome = true)
    (hc : c.rating.isSome = true)
    (hta : a.ts.isSome = true) (htb : b.ts.isSome = true) (htc : c.ts.isSome = true) :
    interactionLe a b = true → interactionLe b c = true → interactionLe a c = true := by
  obtain ⟨ra, hra⟩ := Option.isSome_iff_exists.mp ha
  obtain ⟨rb, hrb⟩ := Option.isSome_iff_exists.mp hb
  obtain ⟨rc, hrc⟩ := Option.isSome_iff_exists.mp hc
  obtain ⟨ta, hta2⟩ := Option.isSome_iff_exists.mp hta
  obtain ⟨tb, htb2⟩ := Option.isSome_iff_exists.mp htb
  obtain ⟨tc, htc2⟩ := Option.isSome_iff_exists.mp htc
  rw [interactionLe_some hra hrb hta2 htb2, interactionLe_some hrb hrc htb2 htc2,
    interactionLe_some hra hrc hta2 htc2]
  omega

/-- Claim C4: after every data load (on a fresh store), the user- and
item-index assignments are mutually inverse bijections between the external
ids, in first-appearance order, and the dense ranges `[0, numUsers)` and
`[0, numItems)`; every stored interaction resolves to indices inside those
ranges; and each rated-item set is exactly the set of items occurring in
the stored interactions of that user. -/
theorem loadData_index_invariants (cfg : Config) (il rl : List (List String)) :
    (loadData cfg il rl Store.empty).reverseItemMap.Nodup ∧
    (loadData cfg il rl Store.empty).reverseUserMap.Nodup ∧
    (loadData cfg il rl Store.empty).reverseItemMap = dedupFirst (il.map itemIdOf) ∧
    (loadData cfg il rl Store.empty).reverseUserMap =
      dedupFirst ((loadData cfg il rl Store.empty).interactions.map Interaction.userId) ∧
    (loadData cfg il rl Store.empty).numUsers =
      (loadData cfg il rl Store.empty).reverseUserMap.length ∧
    (loadData cfg il rl Store.empty).numItems =
      (loadData cfg il rl Store.empty).reverseItemMap.length ∧
    (∀ k i, mapGet k (loadData cfg il rl Store.empty).userMap = some i ↔
      (loadData cfg il rl Store.empty).reverseUserMap[i]? = some k) ∧
    (∀ k i, mapGet k (loadData cfg il rl Store.empty).itemMap = some i ↔
      (loadData cfg il rl Store.empty).reverseItemMap[i]? = some k) ∧
    (∀ t ∈ (loadData cfg il rl Store.empty).interactions,
      t.uIdx < (loadData cfg il rl Store.empty).numUsers ∧
      t.iIdx < (loadData cfg il rl Store.empty).numItems) ∧
    (∀ u i, i ∈ (mapGet u (loadData cfg il rl Store.empty).userRatedItems).getD [] ↔
      ∃ t ∈ (loadData cfg il rl Store.empty).interactions,
        t.userId = u ∧ t.itemId = i) := by
  have hitem := loadData_itemMap_spec cfg il rl
  have hndItem : (loadData cfg il rl Store.empty).reverseItemMap.Nodup := by
    rw [hitem.1]
    exact nodup_dedupFirst _
  have hndUser : (loadData cfg il rl Store.empty).reverseUserMap.Nodup := by
    rw [loadData_userOrder cfg il rl]
    exact nodup_dedupFirst _
  refine ⟨hndItem, hndUser, hitem.1, loadData_userOrder cfg il rl,
    loadData_numUsers_eq cfg il rl Store.empty, loadData_numItems_eq cfg il rl Store.empty,
    ?_, ?_, ?_, ?_⟩
  · intro k i
    rw [loadData_userMaps cfg il rl k]
    constructor
    · exact idxOf?_getElem?
    · exact getElem?_idxOf? hndUser
  · intro k i
    rw [hitem.2 k]
    constructor
    · exact idxOf?_getElem?
    · exact getElem?_idxOf? hndItem
  · intro t ht
    constructor
    · have hu := loadData_rawUser cfg il rl t ht
      rw [loadData_userMaps cfg il rl t.userId] at hu
      rw [loadData_numUsers_eq]
      rw [loadData_revUser_eq] at hu
      exact idxOf?_lt_length hu
    · have hi := loadData_rawItem cfg il rl t ht
      rw [hitem.2 t.itemId] at hi
      rw [loadData_numItems_eq]
      rw [loadData_revItem_eq] at hi
      exact idxOf?_lt_length hi
  · intro u i
    rw [loadData_rated cfg il rl u]
    by_cases hm : u ∈ (loadData cfg il rl Store.empty).reverseUserMap
    · rw [if_pos hm]
      rw [Option.getD_some]
      rw [mem_dedupFirst]
      constructor
      · intro hmem
        obtain ⟨t, ht, hti⟩ := List.mem_map.mp hmem
        obtain ⟨ht2, htu⟩ := List.mem_filter.mp ht
        exact ⟨t, ht2, beq_iff_eq.mp htu, hti⟩
      · rintro ⟨t, ht, htu, hti⟩
        exact List.mem_map.mpr ⟨t, List.mem_filter.mpr ⟨ht, beq_iff_eq.mpr htu⟩, hti⟩
    · rw [if_neg hm]
      rw [Option.getD_none]
      constructor
      · intro hmem
        exact absurd hmem (List.not_mem_nil i)
      · rintro ⟨t, ht, htu, -⟩
        exfalso
        apply hm
        have hu := loadData_rawUser cfg il rl t ht
        rw [loadData_userMaps cfg il rl t.userId] at hu
        rw [← htu]
        exact idxOf?_isSome_iff.mp (by rw [hu]; rfl)

/-- Witness for C4: in the fixture, the stored interaction of user 7 on
item 1 resolves to indices inside the dense ranges. -/
theorem loadData_index_invariants_witness :
    (⟨"7", "1", some 5, some 100, 0, 0⟩ : Interaction).uIdx < stW.numUsers ∧
    (⟨"7", "1", some 5, some 100, 0, 0⟩ : Interaction).iIdx < stW.numItems :=
  ((loadData_index_invariants cfgW ilW rlW).2.2.2.2.2.2.2.2.1)
    ⟨"7", "1", some 5, some 100, 0, 0⟩ (by decide)

/-- Claim C3: the historical top-K list of a user is the stable sort of the
stored interactions of that user by rating descending with
timestamp-descending tie-break, truncated to K: it equals the code-level
sort-and-take, has length `min K n`, is pairwise ordered by the spec
ordering, and is a sub-permutation of the interactions of that user. -/
theorem loadData_topK_spec (cfg : Config) (il rl : List (List String)) (u : String)
    (l : List Interaction)
    (hl : mapGet u (loadData cfg il rl Store.empty).userTopRated = some l)
    (hnum : ∀ t ∈ (loadData cfg il rl Store.empty).interactions.filter
        (fun t => t.userId == u), t.rating.isSome = true ∧ t.ts.isSome = true) :
    l = (jsSort interactionLe
        ((loadData cfg il rl Store.empty).interactions.filter
          (fun t => t.userId == u))).take cfg.topK ∧
    l.length = min cfg.topK
      ((loadData cfg il rl Store.empty).interactions.filter
        (fun t => t.userId == u)).length ∧
    List.Pairwise ratingThenTsDesc l ∧
    l.Subperm ((loadData cfg il rl Store.empty).interactions.filter
      (fun t => t.userId == u)) := by
  have htop := loadData_topRated cfg il rl u
  rw [hl] at htop
  by_cases hm : u ∈ (loadData cfg il rl Store.empty).reverseUserMap
  · rw [if_pos hm] at htop
    obtain rfl := Option.some.inj htop
    have hmemF : ∀ t ∈ jsSort interactionLe
        ((loadData cfg il rl Store.empty).interactions.filter (fun t => t.userId == u)),
        t ∈ (loadData cfg il rl Store.empty).interactions.filter (fun t => t.userId == u) :=
      fun t ht => mem_jsSort.mp ht
    have hsorted : List.Pairwise (fun a b => interactionLe a b = true)
        (jsSort interactionLe
          ((loadData cfg il rl Store.empty).interactions.filter (fun t => t.userId == u))) := by
      apply pairwise_jsSort
      · intro a ha b hb
        exact interactionLe_total (hnum a ha).1 (hnum b hb).1 (hnum a ha).2 (hnum b hb).2
      · intro a ha b hb c hc
        exact interactionLe_trans (hnum a ha).1 (hnum b hb).1 (hnum c hc).1
          (hnum a ha).2 (hnum b hb).2 (hnum c hc).2
    refine ⟨rfl, ?_, ?_, ?_⟩
    · rw [List.length_take, length_jsSort]
    · refine List.Pairwise.imp ?_ (List.Pairwise.take hsorted)
      intro a b hle ra rb ta tb ha hb hta htb
      exact (interactionLe_some ha hb hta htb).mp hle
    · exact ((List.take_sublist _ _).subperm).trans (jsSort_perm _ _).subperm
  · rw [if_neg hm] at htop
    exact absurd htop (Option.noConfusion)

/-- Witness for C3: in the fixture of the claim (ratings A(5,t=100),
B(5,t=200), C(3,t=300)), the stored top-2 list is exactly [B, A]. -/
theorem loadData_topK_spec_witness :
    mapGet "7" stW.userTopRated = some
      [⟨"7", "2", some 5, some 200, 0, 1⟩, ⟨"7", "1", some 5, some 100, 0, 0⟩] ∧
    ([⟨"7", "2", some 5, some 200, 0, 1⟩, ⟨"7", "1", some 5, some 100, 0, 0⟩] :
        List Interaction) =
      (jsSort interactionLe (stW.interactions.filter (fun t => t.userId == "7"))).take
        cfgW.topK ∧
    ([⟨"7", "2", some 5, some 200, 0, 1⟩, ⟨"7", "1", some 5, some 100, 0, 0⟩] :
        List Interaction).length =
      min cfgW.topK (stW.interactions.filter (fun t => t.userId == "7")).length :=
  ⟨by decide,
   (loadData_topK_spec cfgW ilW rlW "7"
      [⟨"7", "2", some 5, some 200, 0, 1⟩, ⟨"7", "1", some 5, some 100, 0, 0⟩]
      (by decide) (by decide)).1,
   (loadData_topK_spec cfgW ilW rlW "7"
      [⟨"7", "2", some 5, some 200, 0, 1⟩, ⟨"7", "1", some 5, some 100, 0, 0⟩]
      (by decide) (by decide)).2.1⟩

/-- Claim C10: a rating line whose item id is unknown is skipped entirely:
the processing step is the identity on the whole accumulator, every stored
interaction has a known item id, and a user occurring only in such lines
gets no index, no rated-item set and no top-K list. -/
theorem loadData_unknown_item_skipped (cfg : Config) (il rl : List (List String)) (u : String) :
    (∀ (acc : RatingAcc) (parts : List String),
      keepLine acc.st.itemMap parts = false → processRatingLine acc parts = acc) ∧
    (∀ t ∈ (loadData cfg il rl Store.empty).interactions,
      mapHas t.itemId (loadData cfg il rl Store.empty).itemMap = true) ∧
    ((∀ parts ∈ rl.take cfg.maxInteractions,
        parts.getD 0 "" = u →
          keepLine (loadData cfg il rl Store.empty).itemMap parts = false) →
      u ∉ (loadData cfg il rl Store.empty).reverseUserMap ∧
      mapGet u (loadData cfg il rl Store.empty).userMap = none ∧
      mapGet u (loadData cfg il rl Store.empty).userRatedItems = none ∧
      mapGet u (loadData cfg il rl Store.empty).userTopRated = none ∧
      ∀ t ∈ (loadData cfg il rl Store.empty).interactions, t.userId ≠ u) := by
  refine ⟨fun acc parts h => processRatingLine_skip h, ?_, ?_⟩
  · intro t ht
    rw [mapHas, loadData_rawItem cfg il rl t ht]
    rfl
  · intro honly
    have hnou : ∀ t ∈ (loadData cfg il rl Store.empty).interactions, t.userId ≠ u := by
      intro t ht htu
      rw [loadData_interactions_spec cfg il rl] at ht
      obtain ⟨parts, hp, rfl⟩ := List.mem_map.mp ht
      obtain ⟨hpmem, hpk⟩ := List.mem_filter.mp hp
      have : parts.getD 0 "" = u := htu
      rw [honly parts hpmem this] at hpk
      exact Bool.noConfusion hpk
    have hnomem : u ∉ (loadData cfg il rl Store.empty).reverseUserMap := by
      rw [loadData_userOrder cfg il rl]
      rw [mem_dedupFirst]
      intro hmem
      obtain ⟨t, ht, htu⟩ := List.mem_map.mp hmem
      exact hnou t ht htu
    refine ⟨hnomem, ?_, ?_, ?_, hnou⟩
    · rw [loadData_userMaps cfg il rl u]
      exact idxOf?_eq_none_iff.mpr hnomem
    · rw [loadData_rated cfg il rl u, if_neg hnomem]
    · rw [loadData_topRated cfg il rl u, if_neg hnomem]

/-- Witness for C10: user 9, whose only line names the unknown item 99,
gets no index, no rated-item set and no top-K list. -/
theorem loadData_unknown_item_skipped_witness :
    "9" ∉ st10.reverseUserMap ∧
    mapGet "9" st10.userMap = none ∧
    mapGet "9" st10.userRatedItems = none ∧
    mapGet "9" st10.userTopRated = none :=
  ⟨((loadData_unknown_item_skipped cfgW ilW rl10 "9").2.2 (by decide)).1,
   ((loadData_unknown_item_skipped cfgW ilW rl10 "9").2.2 (by decide)).2.1,
   ((loadData_unknown_item_skipped cfgW ilW rl10 "9").2.2 (by decide)).2.2.1,
   ((loadData_unknown_item_skipped cfgW ilW rl10 "9").2.2 (by decide)).2.2.2.1⟩

/-- Counterexample to C9 as stated: loading a record with a non-numeric
rating does not fail with a DataError; the record is silently ingested into
the interaction sequence with a `NaN` (`none`) rating. -/
theorem loadData_dataError_counterexample :
    stN.interactions = [⟨"9", "1", none, some 100, 0, 0⟩] ∧
    (⟨"9", "1", none, some 100, 0, 0⟩ : Interaction).rating = none := by
  constructor
  · decide
  · rfl

/-- Claim C9 (amended): loading never rejects a record: every line within
the cap whose item id is known is ingested exactly once, with its rating
and timestamp fields passed through `parseInt` (`none` = `NaN`) rather
than validated, and unknown-item lines are skipped silently. -/
theorem loadData_never_rejects (cfg : Config) (il rl : List (List String)) :
    (loadData cfg il rl Store.empty).interactions =
      ((rl.take cfg.maxInteractions).filter
          (keepLine (loadData cfg il rl Store.empty).itemMap)).map
        (mkInteraction (loadData cfg il rl Store.empty).userMap
          (loadData cfg il rl Store.empty).itemMap) ∧
    ∀ parts ∈ rl.take cfg.maxInteractions,
      keepLine (loadData cfg il rl Store.empty).itemMap parts = true →
        mkInteraction (loadData cfg il rl Store.empty).userMap
            (loadData cfg il rl Store.empty).itemMap parts ∈
          (loadData cfg il rl Store.empty).interactions ∧
        (mkInteraction (loadData cfg il rl Store.empty).userMap
            (loadData cfg il rl Store.empty).itemMap parts).rating =
          jsParseInt (parts.getD 2 "") := by
  refine ⟨loadData_interactions_spec cfg il rl, ?_⟩
  intro parts hp hk
  constructor
  · rw [loadData_interactions_spec cfg il rl]
    exact List.mem_map.mpr ⟨parts, List.mem_filter.mpr ⟨hp, hk⟩, rfl⟩
  · rfl

/-- Witness for the amended C9: the line with the non-numeric rating
"oops" is ingested, with rating `parseInt("oops") = NaN`. -/
theorem loadData_never_rejects_witness :
    mkInteraction stN.userMap stN.itemMap ["9", "1", "oops", "100"] ∈ stN.interactions ∧
    (mkInteraction stN.userMap stN.itemMap ["9", "1", "oops", "100"]).rating =
      jsParseInt "oops" :=
  (loadData_never_rejects cfgW ilW rlN).2 ["9", "1", "oops", "100"] (by decide) (by decide)

/-- Second run of the interaction pass over a store whose user map and
rated-item sets already cover every kept line: the user map, the reverse
user list and the rated-item sets are left unchanged. -/
theorem processRatingLines_rerun (s1 : Store) (lines : List (List String)) :
    ∀ acc : RatingAcc,
      acc.st.userMap = s1.userMap →
      acc.st.reverseUserMap = s1.reverseUserMap →
      acc.st.userRatedItems = s1.userRatedItems →
      acc.st.itemMap = s1.itemMap →
      (∀ parts ∈ lines, keepLine s1.itemMap parts = true →
        ∃ i, mapGet (parts.getD 0 "") s1.userMap = some i) →
      (∀ parts ∈ lines, keepLine s1.itemMap parts = true →
        ∃ s, mapGet (parts.getD 0 "") s1.userRatedItems = some s ∧ parts.getD 1 "" ∈ s) →
      (processRatingLines acc lines).st.userMap = s1.userMap ∧
      (processRatingLines acc lines).st.reverseUserMap = s1.reverseUserMap ∧
      (processRatingLines acc lines).st.userRatedItems = s1.userRatedItems := by
  induction lines with
  | nil => intro acc hum hrev hrat him _ _; exact ⟨hum, hrev, hrat⟩
  | cons parts rest ih =>
      intro acc hum hrev hrat him humL hratL
      rw [processRatingLines]
      have hfr := processRatingLine_frame acc parts
      cases hkeep : keepLine acc.st.itemMap parts with
      | false =>
          rw [processRatingLine_skip hkeep]
          exact ih acc hum hrev hrat him
            (fun q hq => humL q (List.mem_cons_of_mem _ hq))
            (fun q hq => hratL q (List.mem_cons_of_mem _ hq))
      | true =>
          have hkeep1 : keepLine s1.itemMap parts = true := by rw [← him]; exact hkeep
          obtain ⟨i, hi⟩ := humL parts (List.mem_cons_self parts rest) hkeep1
          obtain ⟨sr, hsr, hin⟩ := hratL parts (List.mem_cons_self parts rest) hkeep1
          have hi2 : mapGet (parts.getD 0 "") acc.st.userMap = some i := by
            rw [hum]; exact hi
          rw [processRatingLine_hit hkeep hi2]
          refine ih _ ?_ ?_ ?_ ?_
            (fun q hq => humL q (List.mem_cons_of_mem _ hq))
            (fun q hq => hratL q (List.mem_cons_of_mem _ hq))
          · exact hum
          · exact hrev
          · dsimp only
            rw [hrat, hsr]
            rw [Option.getD_some]
            rw [show setAdd sr (parts.getD 1 "") = sr by
              simp only [setAdd]
              rw [if_pos hin]]
            exact mapSet_eq_self hsr
          · exact him

/-- The items pass of a reload over an already-populated item map is the
identity: every metadata id is already known. -/
theorem processItemLines_reload (cfg : Config) (il rl : List (List String)) :
    processItemLines (loadData cfg il rl Store.empty) 0 il =
      loadData cfg il rl Store.empty := by
  apply processItemLines_allKnown
  intro parts hp
  rw [mapHas]
  rw [(loadData_itemMap_spec cfg il rl).2 (parts.getD 0 "")]
  rw [Option.isSome_iff_exists]
  have hmem : parts.getD 0 "" ∈ (loadData cfg il rl Store.empty).reverseItemMap := by
    rw [(loadData_itemMap_spec cfg il rl).1, mem_dedupFirst]
    exact List.mem_map.mpr ⟨parts, hp, rfl⟩
  obtain ⟨j, hj⟩ := Option.isSome_iff_exists.mp (idxOf?_isSome_iff.mpr hmem)
  exact ⟨j, hj⟩

theorem loadData_reload_kept_user (cfg : Config) (il rl : List (List String)) :
    ∀ parts ∈ rl.take cfg.maxInteractions,
      keepLine (loadData cfg il rl Store.empty).itemMap parts = true →
        ∃ i, mapGet (parts.getD 0 "")
          (loadData cfg il rl Store.empty).userMap = some i := by
  intro parts hp hk
  have hmem : mkInteraction (loadData cfg il rl Store.empty).userMap
      (loadData cfg il rl Store.empty).itemMap parts ∈
        (loadData cfg il rl Store.empty).interactions := by
    rw [loadData_interactions_spec cfg il rl]
    exact List.mem_map.mpr ⟨parts, List.mem_filter.mpr ⟨hp, hk⟩, rfl⟩
  exact ⟨_, loadData_rawUser cfg il rl _ hmem⟩

theorem loadData_reload_kept_rated (cfg : Config) (il rl : List (List String)) :
    ∀ parts ∈ rl.take cfg.maxInteractions,
      keepLine (loadData cfg il rl Store.empty).itemMap parts = true →
        ∃ s, mapGet (parts.getD 0 "")
            (loadData cfg il rl Store.empty).userRatedItems = some s ∧
          parts.getD 1 "" ∈ s := by
  intro parts hp hk
  have hmem : mkInteraction (loadData cfg il rl Store.empty).userMap
      (loadData cfg il rl Store.empty).itemMap parts ∈
        (loadData cfg il rl Store.empty).interactions := by
    rw [loadData_interactions_spec cfg il rl]
    exact List.mem_map.mpr ⟨parts, List.mem_filter.mpr ⟨hp, hk⟩, rfl⟩
  have hrev : parts.getD 0 "" ∈ (loadData cfg il rl Store.empty).reverseUserMap := by
    have hu : mapGet (parts.getD 0 "") (loadData cfg il rl Store.empty).userMap =
        some (mkInteraction (loadData cfg il rl Store.empty).userMap
          (loadData cfg il rl Store.empty).itemMap parts).uIdx :=
      loadData_rawUser cfg il rl _ hmem
    rw [loadData_userMaps cfg il rl] at hu
    exact idxOf?_isSome_iff.mp (by rw [hu]; rfl)
  refine ⟨_, by rw [loadData_rated cfg il rl, if_pos hrev], ?_⟩
  rw [mem_dedupFirst]
  refine List.mem_map.mpr ⟨mkInteraction (loadData cfg il rl Store.empty).userMap
    (loadData cfg il rl Store.empty).itemMap parts, ?_, rfl⟩
  exact List.mem_filter.mpr ⟨hmem, beq_iff_eq.mpr rfl⟩

/-- Claim C8 (amended): loading the same dataset a second time on the same
store leaves every observable field unchanged except the per-user
historical top-K lists: interactions, metadata, both index maps, both
reverse lists, rated-item sets, eligible users, and the counts coincide
with the state after the first load. -/
theorem loadData_reload_partial_idempotent (cfg : Config) (il rl : List (List String)) :
    (loadData cfg il rl (loadData cfg il rl Store.empty)).interactions =
      (loadData cfg il rl Store.empty).interactions ∧
    (loadData cfg il rl (loadData cfg il rl Store.empty)).items =
      (loadData cfg il rl Store.empty).items ∧
    (loadData cfg il rl (loadData cfg il rl Store.empty)).userMap =
      (loadData cfg il rl Store.empty).userMap ∧
    (loadData cfg il rl (loadData cfg il rl Store.empty)).itemMap =
      (loadData cfg il rl Store.empty).itemMap ∧
    (loadData cfg il rl (loadData cfg il rl Store.empty)).reverseUserMap =
      (loadData cfg il rl Store.empty).reverseUserMap ∧
    (loadData cfg il rl (loadData cfg il rl Store.empty)).reverseItemMap =
      (loadData cfg il rl Store.empty).reverseItemMap ∧
    (loadData cfg il rl (loadData cfg il rl Store.empty)).userRatedItems =
      (loadData cfg il rl Store.empty).userRatedItems ∧
    (loadData cfg il rl (loadData cfg il rl Store.empty)).testUsers =
      (loadData cfg il rl Store.empty).testUsers ∧
    (loadData cfg il rl (loadData cfg il rl Store.empty)).numUsers =
      (loadData cfg il rl Store.empty).numUsers ∧
    (loadData cfg il rl (loadData cfg il rl Store.empty)).numItems =
      (loadData cfg il rl Store.empty).numItems := by
  have hacc0 : loadAcc cfg il rl (loadData cfg il rl Store.empty) =
      processRatingLines ⟨loadData cfg il rl Store.empty, [], 0⟩
        (rl.take cfg.maxInteractions) := by
    rw [loadAcc, processItemLines_reload cfg il rl]
  have hrerun := processRatingLines_rerun (loadData cfg il rl Store.empty)
    (rl.take cfg.maxInteractions) ⟨loadData cfg il rl Store.empty, [], 0⟩ rfl rfl rfl rfl
    (loadData_reload_kept_user cfg il rl) (loadData_reload_kept_rated cfg il rl)
  have hfr := processRatingLines_frame (rl.take cfg.maxInteractions)
    ⟨loadData cfg il rl Store.empty, [], 0⟩
  have hraw := processRatingLines_raw (rl.take cfg.maxInteractions)
    ⟨loadData cfg il rl Store.empty, [], 0⟩ (fun t ht => absurd ht (List.not_mem_nil t))
  refine ⟨?_, ?_, ?_, ?_, ?_, ?_, ?_, ?_, ?_, ?_⟩
  · rw [loadData_interactions_eq cfg il rl (loadData cfg il rl Store.empty), hacc0, hraw]
    rw [hrerun.1]
    dsimp only
    rw [List.nil_append]
    exact (loadData_interactions_spec cfg il rl).symm
  · rw [loadData_items_eq cfg il rl (loadData cfg il rl Store.empty), hacc0]
    exact hfr.2.1
  · rw [loadData_userMap_eq cfg il rl (loadData cfg il rl Store.empty), hacc0]
    exact hrerun.1
  · rw [loadData_itemMap_eq cfg il rl (loadData cfg il rl Store.empty), hacc0]
    exact hfr.2.2.1
  · rw [loadData_revUser_eq cfg il rl (loadData cfg il rl Store.empty), hacc0]
    exact hrerun.2.1
  · rw [loadData_revItem_eq cfg il rl (loadData cfg il rl Store.empty), hacc0]
    exact hfr.2.2.2.1
  · rw [loadData_ratedItems_eq cfg il rl (loadData cfg il rl Store.empty), hacc0]
    exact hrerun.2.2
  · rw [loadData_testUsers_eq cfg il rl (loadData cfg il rl Store.empty),
      loadData_testUsers_eq cfg il rl Store.empty, hacc0]
    simp only [hrerun.2.1, hrerun.2.2, ← loadData_revUser_eq cfg il rl Store.empty,
      ← loadData_ratedItems_eq cfg il rl Store.empty]
  · rw [loadData_numUsers_eq cfg il rl (loadData cfg il rl Store.empty),
      loadData_numUsers_eq cfg il rl Store.empty, hacc0, hrerun.2.1,
      ← loadData_revUser_eq cfg il rl Store.empty]
  · rw [loadData_numItems_eq cfg il rl (loadData cfg il rl Store.empty),
      loadData_numItems_eq cfg il rl Store.empty, hacc0, hfr.2.2.2.1,
      ← loadData_revItem_eq cfg il rl Store.empty]

/-- Counterexample to C8 as stated: after the second load of the same
dataset the observable store differs from the state after the first load,
because the historical top-K list of user 7 now holds the same interaction
twice. -/
theorem loadData_reload_counterexample :
    s2D.userTopRated ≠ s1D.userTopRated ∧ s2D ≠ s1D := by
  constructor
  · decide
  · decide

/-- Claim C2: the recommendation output contains no rated item, has exactly
`min k (number of unrated items)` entries, and is sorted by score
descending. -/
theorem recommend_spec (reverseItemMap ratedItemIds : List String)
    (scores : List ℚ) (k : Nat) :
    (∀ r ∈ recommend reverseItemMap ratedItemIds scores k, r.itemId ∉ ratedItemIds) ∧
    (recommend reverseItemMap ratedItemIds scores k).length =
      min k ((withScores reverseItemMap 0 scores).filter
        (fun it => !(ratedItemIds.contains it.itemId))).length ∧
    List.Pairwise (fun a b => b.score ≤ a.score)
      (recommend reverseItemMap ratedItemIds scores k) := by
  refine ⟨?_, ?_, ?_⟩
  · intro r hr
    have hr2 : r ∈ jsSort scoreLe ((withScores reverseItemMap 0 scores).filter
        (fun it => !(ratedItemIds.contains it.itemId))) :=
      List.mem_of_mem_take hr
    have hr3 := mem_jsSort.mp hr2
    have hnc := (List.mem_filter.mp hr3).2
    intro hmem
    have htrue : ratedItemIds.contains r.itemId = true := List.elem_iff.mpr hmem
    rw [htrue] at hnc
    exact absurd hnc (by decide)
  · rw [recommend]
    rw [List.length_take, length_jsSort]
  · have hsorted : List.Pairwise (fun a b => scoreLe a b = true)
        (jsSort scoreLe ((withScores reverseItemMap 0 scores).filter
          (fun it => !(ratedItemIds.contains it.itemId)))) := by
      apply pairwise_jsSort
      · intro a _ b _
        rw [scoreLe, scoreLe, decide_eq_true_eq, decide_eq_true_eq]
        exact le_total b.score a.score
      · intro a _ b _ c _
        rw [scoreLe, scoreLe, scoreLe, decide_eq_true_eq, decide_eq_true_eq,
          decide_eq_true_eq]
        intro h1 h2
        exact le_trans h2 h1
    refine List.Pairwise.imp ?_ (List.Pairwise.take hsorted)
    intro a b h
    rw [scoreLe, decide_eq_true_eq] at h
    exact h

/-- Witness for C2: catalog of three items, item 2 already rated, k = 2. -/
theorem recommend_spec_witness :
    (recommend ["1", "2", "3"] ["2"] [(1 : ℚ), 3, 2] 2).length =
      min 2 ((withScores ["1", "2", "3"] 0 [(1 : ℚ), 3, 2]).filter
        (fun it => !((["2"] : List String).contains it.itemId))).length ∧
    List.Pairwise (fun a b => b.score ≤ a.score)
      (recommend ["1", "2", "3"] ["2"] [(1 : ℚ), 3, 2] 2) ∧
    (⟨2, "3", 2⟩ : ScoredItem).itemId ∉ (["2"] : List String) :=
  ⟨(recommend_spec ["1", "2", "3"] ["2"] [(1 : ℚ), 3, 2] 2).2.1,
   (recommend_spec ["1", "2", "3"] ["2"] [(1 : ℚ), 3, 2] 2).2.2,
   (recommend_spec ["1", "2", "3"] ["2"] [(1 : ℚ), 3, 2] 2).1 ⟨2, "3", 2⟩ (by decide)⟩

/-- Counterexample to C7 as stated: with metadata items 1 and 2 but
interactions only on item 1, the simple tower built over
`numItems = 2` still assigns a retrieval score to item 2 (index 1), an
item that appears in no training interaction. -/
theorem simple_tower_counterexample :
    (loadData cfgW [["1", "A"], ["2", "B"]] [["9", "1", "5", "100"]] Store.empty).numItems
        = 2 ∧
    (loadData cfgW [["1", "A"], ["2", "B"]] [["9", "1", "5", "100"]]
        Store.empty).interactions.all (fun t => t.itemId != "2") = true ∧
    (loadData cfgW [["1", "A"], ["2", "B"]] [["9", "1", "5", "100"]]
        Store.empty).interactions.all (fun t => t.iIdx != 1) = true ∧
    ((getScoresForAllItems
        (mkEmbeddingTable
          (loadData cfgW [["1", "A"], ["2", "B"]] [["9", "1", "5", "100"]]
            Store.empty).numItems 1 (fun _ _ => 0)) [1])[1]?).isSome = true := by
  refine ⟨by decide, by decide, by decide, by decide⟩

/-- Claim C7 (amended): the simple tower scores exactly the rows of its
embedding table, i.e. the full loaded catalog `[0, numItems)` fixed at
construction; every catalog index receives a score whether or not the item
occurs in any training interaction, and no index outside the catalog is
scored. -/
theorem simple_tower_scores_catalog (numItems embeddingDim : Nat)
    (init : Nat → Nat → ℚ) (u : List ℚ) :
    (getScoresForAllItems (mkEmbeddingTable numItems embeddingDim init) u).length =
      numItems ∧
    (∀ i, i < numItems →
      ((getScoresForAllItems (mkEmbeddingTable numItems embeddingDim init) u)[i]?).isSome
        = true) ∧
    (∀ i, numItems ≤ i →
      (getScoresForAllItems (mkEmbeddingTable numItems embeddingDim init) u)[i]? = none) := by
  have hlen : (getScoresForAllItems (mkEmbeddingTable numItems embeddingDim init) u).length
      = numItems := by
    rw [getScoresForAllItems, mkEmbeddingTable]
    rw [List.length_map, List.length_map, List.length_range]
  refine ⟨hlen, ?_, ?_⟩
  · intro i hi
    rw [List.getElem?_eq_getElem (by rw [hlen]; exact hi)]
    rfl
  · intro i hi
    exact List.getElem?_eq_none (by rw [hlen]; exact hi)

/-- Witness for the amended C7: a two-row table scores index 1 and not
index 2. -/
theorem simple_tower_scores_catalog_witness :
    ((getScoresForAllItems (mkEmbeddingTable 2 1 (fun _ _ => 0)) [1])[1]?).isSome = true ∧
    (getScoresForAllItems (mkEmbeddingTable 2 1 (fun _ _ => 0)) [1])[2]? = none :=
  ⟨(simple_tower_scores_catalog 2 1 (fun _ _ => 0) [1]).2.1 1 (by decide),
   (simple_tower_scores_catalog 2 1 (fun _ _ => 0) [1]).2.2 2 (by decide)⟩

theorem length_epochLosses (step : List Interaction → ℚ) (b nB : Nat)
    (l : List Interaction) : (epochLosses step b nB l).length = nB := by
  rw [epochLosses, batchesOf, List.length_map, List.length_map, List.length_range]

theorem trainGo_length (shuffle : Nat → List Interaction → List Interaction)
    (step : List Interaction → ℚ) (b nB : Nat) :
    ∀ (e eIdx : Nat) (l : List Interaction) (hist : List ℚ),
      (trainGo shuffle step b nB e eIdx l hist).2.length = hist.length + e * nB := by
  intro e
  induction e with
  | zero => intro eIdx l hist; simp [trainGo]
  | succ e ih =>
      intro eIdx l hist
      rw [trainGo, ih]
      rw [List.length_append, length_epochLosses]
      ring

theorem flatten_batchesOf (b : Nat) (l : List Interaction) :
    ∀ m : Nat, (batchesOf b m l).flatten = l.take (m * b) := by
  intro m
  induction m with
  | zero => simp [batchesOf]
  | succ m ih =>
      rw [batchesOf, List.range_succ, List.map_append, List.flatten_append]
      rw [show List.map (fun i => (l.drop (i * b)).take b) (List.range m) = batchesOf b m l
        from rfl]
      rw [ih]
      simp only [List.map_cons, List.map_nil, List.flatten_cons, List.flatten_nil,
        List.append_nil]
      rw [show (m + 1) * b = m * b + b by ring]
      rw [List.take_add]

theorem numBatchesJs_eq (n b : Nat) (hb : 0 < b) :
    numBatchesJs n b = n / b + (if n % b = 0 then 0 else 1) := by
  rw [numBatchesJs]
  rcases Nat.eq_zero_or_pos n with rfl | hn
  · have h1 : (0 + b - 1) / b = 0 := Nat.div_eq_of_lt (by omega)
    rw [h1]
    simp
  · have hdm := Nat.div_add_mod n b
    have hmod : n % b < b := Nat.mod_lt n hb
    by_cases h : n % b = 0
    · rw [if_pos h]
      have h2 : n + b - 1 = b * (n / b) + (b - 1) := by omega
      rw [h2, Nat.mul_add_div hb, Nat.div_eq_of_lt (show b - 1 < b by omega)]
    · rw [if_neg h]
      have h2 : n + b - 1 = b * (n / b) + (n % b - 1 + b) := by omega
      rw [h2, Nat.mul_add_div hb]
      have h3 : (n % b - 1 + b) / b = 1 := by
        rw [Nat.add_div_right _ hb, Nat.div_eq_of_lt (show n % b - 1 < b by omega)]
      omega

theorem trainGo_list_length (shuffle : Nat → List Interaction → List Interaction)
    (step : List Interaction → ℚ) (b nB : Nat)
    (hs : ∀ e l, (shuffle e l).length = l.length) :
    ∀ (e eIdx : Nat) (l : List Interaction) (hist : List ℚ),
      (trainGo shuffle step b nB e eIdx l hist).1.length = l.length := by
  intro e
  induction e with
  | zero => intro eIdx l hist; rfl
  | succ e ih =>
      intro eIdx l hist
      rw [trainGo, ih, hs]

theorem batchesOf_getElem (b nB : Nat) (l : List Interaction) (i : Nat) (hi : i < nB) :
    (batchesOf b nB l)[i]? = some ((l.drop (i * b)).take b) := by
  rw [batchesOf, List.getElem?_map, List.getElem?_range hi]
  rfl

/-- Claim C5: the loss history of a training run over `N` interactions with
batch size `B > 0` and `E` epochs has exactly `E * ceil(N / B)` entries;
each epoch is split into `ceil(N / B)` sequential slices of the shuffled
order whose concatenation is the whole shuffled list; and when `B` does not
divide `N` the final batch has `N % B < B` elements while every earlier
batch has exactly `B`, and the final batch still contributes its loss. -/
theorem train_loss_history_spec (shuffle : Nat → List Interaction → List Interaction)
    (step : List Interaction → ℚ) (b E : Nat) (l0 : List Interaction)
    (hb : 0 < b) (hs : ∀ e l, (shuffle e l).length = l.length) :
    (train shuffle step b E l0).length = E * numBatchesJs l0.length b ∧
    (trainGo shuffle step b (numBatchesJs l0.length b) E 0 l0 []).1.length = l0.length ∧
    numBatchesJs l0.length b = l0.length / b + (if l0.length % b = 0 then 0 else 1) ∧
    (∀ l : List Interaction, l.length = l0.length →
      (batchesOf b (numBatchesJs l0.length b) l).length = numBatchesJs l0.length b ∧
      (batchesOf b (numBatchesJs l0.length b) l).flatten = l ∧
      (epochLosses step b (numBatchesJs l0.length b) l).length =
        numBatchesJs l0.length b) ∧
    (l0.length % b ≠ 0 → ∀ l : List Interaction, l.length = l0.length →
      ∃ last : List Interaction,
        (batchesOf b (numBatchesJs l0.length b) l)[numBatchesJs l0.length b - 1]? =
          some last ∧
        last.length = l0.length % b ∧ last.length < b ∧
        (∀ i, i + 1 < numBatchesJs l0.length b →
          ((batchesOf b (numBatchesJs l0.length b) l)[i]?).map List.length = some b)) := by
  have hceil := numBatchesJs_eq l0.length b hb
  refine ⟨?_, trainGo_list_length shuffle step b _ hs E 0 l0 [], hceil, ?_, ?_⟩
  · rw [train, trainGo_length]
    simp
  · intro l hl
    refine ⟨?_, ?_, length_epochLosses step b _ l⟩
    · rw [batchesOf, List.length_map, List.length_range]
    · rw [flatten_batchesOf b l]
      apply List.take_of_length_le
      rw [hl, hceil]
      have hdm := Nat.div_add_mod l0.length b
      have hqb : l0.length / b * b = b * (l0.length / b) := Nat.mul_comm _ _
      have hmod : l0.length % b < b := Nat.mod_lt l0.length hb
      by_cases h : l0.length % b = 0
      · rw [if_pos h, Nat.add_zero]
        omega
      · rw [if_neg h]
        have hadd : (l0.length / b + 1) * b = l0.length / b * b + b := by ring
        omega
  · intro hmodne l hl
    have hmod : l0.length % b < b := Nat.mod_lt l0.length hb
    have hnB : numBatchesJs l0.length b = l0.length / b + 1 := by
      rw [hceil, if_neg hmodne]
    refine ⟨(l.drop ((l0.length / b) * b)).take b, ?_, ?_, ?_, ?_⟩
    · rw [hnB]
      rw [show l0.length / b + 1 - 1 = l0.length / b from rfl]
      exact batchesOf_getElem b _ l _ (by omega)
    · rw [List.length_take, List.length_drop, hl]
      have hdm := Nat.div_add_mod l0.length b
      have hqb : l0.length / b * b = b * (l0.length / b) := Nat.mul_comm _ _
      omega
    · rw [List.length_take, List.length_drop, hl]
      have hdm := Nat.div_add_mod l0.length b
      have hqb : l0.length / b * b = b * (l0.length / b) := Nat.mul_comm _ _
      omega
    · intro i hi
      rw [batchesOf_getElem b _ l i (by omega)]
      rw [Option.map_some']
      congr 1
      rw [List.length_take, List.length_drop, hl]
      rw [hnB] at hi
      have hib : i + 1 ≤ l0.length / b := by omega
      have h1 : (i + 1) * b ≤ l0.length / b * b := Nat.mul_le_mul_right b hib
      have h2 : l0.length / b * b ≤ l0.length := Nat.div_mul_le_self _ _
      have h3 : (i + 1) * b = i * b + b := by ring
      omega

/-- Witness for C5: 12 interactions, batch size 4, 3 epochs give exactly
3 * ceil(12 / 4) = 9 loss entries. -/
theorem train_loss_history_spec_witness :
    (train (fun _ l => l) (fun _ => 0) 4 3 (List.replicate 12 tDummy)).length =
      3 * numBatchesJs (List.replicate 12 tDummy).length 4 ∧
    3 * numBatchesJs (List.replicate 12 tDummy).length 4 = 9 :=
  ⟨(train_loss_history_spec (fun _ l => l) (fun _ => 0) 4 3 (List.replicate 12 tDummy)
      (by decide) (fun _ _ => rfl)).1,
   by decide⟩

/-- In every reachable state, an idle model implies a completed run. -/
theorem reachable_completed_of_idle_model {s : AppPhase} (h : Reachable s) :
    s.hasModel = true → s.isTraining = false → 0 < s.completedRuns := by
  induction h with
  | init => intro h1 _; exact Bool.noConfusion h1
  | step hr hs ih =>
      cases hs with
      | loadDone => intro h1 h2; exact ih h1 h2
      | trainStart hd ht => intro _ h2; exact Bool.noConfusion h2
      | trainFinish ht => intro _ _; dsimp; omega

/-- Claim C6: retrieval never runs against weights still in training.  In
every reachable state, a test request made before any training run has
completed, or while the trainer is training, produces no recommendations
and reports the model-not-ready error; and recommendations are only ever
produced in a state where some training run has finished all its epochs
and the trainer is idle. -/
theorem test_requires_completed_training {s : AppPhase} (h : Reachable s)
    (hasEligibleUsers : Bool) :
    ((s.completedRuns = 0 ∨ s.isTraining = true) →
      testRun s hasEligibleUsers = TestResult.notReady) ∧
    (testRun s hasEligibleUsers = TestResult.recommendations →
      0 < s.completedRuns ∧ s.isTraining = false ∧ s.hasModel = true) := by
  cases htr : s.isTraining with
  | true =>
      constructor
      · intro _
        rw [testRun, htr]
        simp
      · intro hrec
        rw [testRun, htr] at hrec
        simp at hrec
  | false =>
      cases hm : s.hasModel with
      | false =>
          constructor
          · intro _
            rw [testRun, htr, hm]
            simp
          · intro hrec
            rw [testRun, htr, hm] at hrec
            simp at hrec
      | true =>
          have hcomp := reachable_completed_of_idle_model h hm htr
          constructor
          · rintro (hzero | htr2)
            · omega
            · exact Bool.noConfusion htr2
          · intro _
            exact ⟨hcomp, rfl, rfl⟩

/-- Witness for C6: in the reachable constructor state no training run has
completed, and a test request reports the model-not-ready error. -/
theorem test_requires_completed_training_witness :
    testRun initPhase true = TestResult.notReady :=
  (test_requires_completed_training Reachable.init true).1 (Or.inl rfl)

/-- The from-logits cross-entropy equals the cross-entropy of the row-wise
softmax, for any label matrix. -/
theorem tfSoftmaxCrossEntropy_eq_crossEntropy {B : ℕ} (labels z : Fin B → Fin B → ℝ) :
    crossEntropy labels (rowSoftmax z) = tfSoftmaxCrossEntropy labels z := by
  rw [crossEntropy, tfSoftmaxCrossEntropy]
  congr 1
  apply Finset.sum_congr rfl
  intro i _
  have hS : (0 : ℝ) < ∑ k, Real.exp (z i k) :=
    Finset.sum_pos (fun k _ => Real.exp_pos _) ⟨i, Finset.mem_univ i⟩
  rw [← Finset.sum_neg_distrib]
  apply Finset.sum_congr rfl
  intro j _
  rw [show rowSoftmax z i j = Real.exp (z i j) / ∑ k, Real.exp (z i k) from rfl]
  rw [Real.log_div (Real.exp_ne_zero _) (ne_of_gt hS), Real.log_exp]
  rw [show logSumExp (fun k => z i k) = Real.log (∑ k, Real.exp (z i k)) from rfl]
  ring

/-- Claim C1: one training step on a batch of B positive (user, item)
pairs looks the embeddings up by row, forms the B-by-B logits matrix whose
entry (i, j) is the dot product of the embedding of user i with the
embedding of item j, takes the identity one-hot labels, and returns the
softmax cross-entropy between the row-wise softmax of the logits and those
diagonal labels, which reduces to the mean of
`logSumExp(logits i) - logits i i`. -/
theorem trainStep_loss_spec {nU nI D B : ℕ} (U : Fin nU → Fin D → ℝ)
    (I : Fin nI → Fin D → ℝ) (uIdx : Fin B → Fin nU) (iIdx : Fin B → Fin nI) :
    (∀ i j, tfMatMulTransB (tfGather U uIdx) (tfGather I iIdx) i j =
      ∑ d, U (uIdx i) d * I (iIdx j) d) ∧
    (∀ i j, tfOneHot B i j = if i = j then (1 : ℝ) else 0) ∧
    trainStepLoss U I uIdx iIdx =
      crossEntropy (tfOneHot B)
        (rowSoftmax (tfMatMulTransB (tfGather U uIdx) (tfGather I iIdx))) ∧
    trainStepLoss U I uIdx iIdx =
      (∑ i, (logSumExp (fun j => tfMatMulTransB (tfGather U uIdx) (tfGather I iIdx) i j) -
        tfMatMulTransB (tfGather U uIdx) (tfGather I iIdx) i i)) / B := by
  refine ⟨fun i j => rfl, fun i j => rfl, ?_, ?_⟩
  · rw [trainStepLoss, tfSoftmaxCrossEntropy_eq_crossEntropy]
  · rw [trainStepLoss, tfSoftmaxCrossEntropy]
    congr 1
    apply Finset.sum_congr rfl
    intro i _
    rw [show (∑ j, tfOneHot B i j *
        (logSumExp (fun k => tfMatMulTransB (tfGather U uIdx) (tfGather I iIdx) i k) -
          tfMatMulTransB (tfGather U uIdx) (tfGather I iIdx) i j)) =
      ∑ j, if i = j then
        (logSumExp (fun k => tfMatMulTransB (tfGather U uIdx) (tfGather I iIdx) i k) -
          tfMatMulTransB (tfGather U uIdx) (tfGather I iIdx) i j) else 0 from
      Finset.sum_congr rfl (fun j _ => by rw [tfOneHot]; split <;> ring)]
    rw [Finset.sum_ite_eq]
    simp

end RecSys
